import Mathlib

/-!
# Verification of the Bayesian decision-tree induction engine

A shallow embedding, in Lean 4, of the split-search and tree-induction
engine of the `bayesian_tree` repository:

* `bayesian_decision_tree/base.py` — the recursive node `_fit` / `fit`
  procedure with its axis-aligned split scan (`Node._fit`, `Node.fit`,
  `Node.is_leaf`);
* `bayesian_decision_tree/hyperplane_optimization.py` — the hyperplane
  objective function (`HyperplaneOptimizationFunction.compute`) and the
  optimizer strategies (`RandomTwoPointOptimizer.solve`,
  `SimulatedAnnealingOptimizer.solve`, `GradientDescentOptimizer.solve`).

Numbers are embedded as rationals (`ℚ`); machine floats are treated as exact
arithmetic except where a claim is specifically about non-finite IEEE values,
which are embedded by the dedicated type `Fl` below.  Data matrices are lists
of rows, each row a list of rationals.  The conjugate-prior likelihood model
(implemented in subclasses that live outside the engine) is abstracted as a
record of functions `TreeModel`, exactly the interface the engine calls.
-/

namespace BayesTree

/-- Embeds `xs.getD i 0` — total list indexing with numpy-style 0 default
(the default is never reached at the indices the code uses). -/
def getQ (xs : List ℚ) (i : ℕ) : ℚ := xs.getD i 0

/-- Total indexing for index lists. -/
def getN (xs : List ℕ) (i : ℕ) : ℕ := xs.getD i 0

/-- Total indexing for rows of a matrix. -/
def getRow (X : List (List ℚ)) (i : ℕ) : List ℚ := X.getD i []

/-- Column `dim` of matrix `X` (`X[:, dim]`). -/
def column (X : List (List ℚ)) (dim : ℕ) : List ℚ := X.map (fun row => getQ row dim)

/-- Number of columns of `X` (`X.shape[1]`): the length of the first row. -/
def numCols (X : List (List ℚ)) : ℕ := (getRow X 0).length

/-- Insert index `i` into the already sorted index list, comparing by values
of `v`; equal keys keep the earlier-inserted index first. -/
def insertIdx (v : List ℚ) (i : ℕ) : List ℕ → List ℕ
  | [] => [i]
  | j :: rest => if getQ v i < getQ v j then i :: j :: rest else j :: insertIdx v i rest

/-- Embeds `np.argsort(v)`: the indices `0, …, v.length - 1` ordered by the value
they point at (an insertion sort; any value-order-respecting permutation is
an admissible refinement of `np.argsort`). -/
def argsortQ (v : List ℚ) : List ℕ :=
  (List.range v.length).foldl (fun acc i => insertIdx v i acc) []

/-- Embeds `v[indices]` — fancy indexing of a vector. -/
def reorderQ (v : List ℚ) (indices : List ℕ) : List ℚ := indices.map (fun i => getQ v i)

/-- Embeds `X[indices]` — fancy indexing of the rows of a matrix. -/
def reorderRows (X : List (List ℚ)) (indices : List ℕ) : List (List ℚ) :=
  indices.map (fun i => getRow X i)

/-- Embeds `1 + np.where(np.diff(v) != 0)[0]`: the candidate split positions of the
axis scan — indices `i+1` such that consecutive entries `v[i]`, `v[i+1]`
differ (`base.py`, line 98). -/
def splitIndicesExact (v : List ℚ) : List ℕ :=
  ((List.range (v.length - 1)).filter (fun i => getQ v (i + 1) - getQ v i ≠ 0)).map (· + 1)

/-- Embeds `np.argmax`: index of the first occurrence of the maximal entry
(0 on an empty list). -/
def argmaxIdx : List ℚ → ℕ
  | [] => 0
  | x :: xs =>
    let r := argmaxIdx xs
    if getQ (x :: xs) (r + 1) > x ∧ xs ≠ [] then r + 1 else 0

/-- The interface of the conjugate-prior likelihood model, as consumed by
`Node._fit`.  `P` is the opaque prior/posterior state type.
`logPNoSplit prior y` is `compute_log_p_data_post_no_split(y)`;
`logPSplit prior ySorted splitIndices nDim` is
`compute_log_p_data_post_split(y_sorted, split_indices, n_dim)`;
`posterior prior y delta` is `compute_posterior(y, delta)` (the Python
default for `delta` is `1`). -/
structure TreeModel (P : Type) where
  logPNoSplit : P → List ℚ → ℚ
  logPSplit : P → List ℚ → List ℕ → ℕ → List ℚ
  posterior : P → List ℚ → ℚ → P

/-- The tree node (`Node` of `base.py`): prior, posterior (`None` before
fitting), depth level, split dimension (`-1` before a split is found), split
value (`None` for leaves) and the two optional children. -/
inductive Node (P : Type) where
  | mk (prior : P) (posterior : Option P) (level : ℕ) (split_dimension : ℤ)
      (split_value : Option ℚ) (child1 : Option (Node P)) (child2 : Option (Node P))

namespace Node

variable {P : Type}

/-- Accessor: `node.prior`. -/
def priorOf : Node P → P
  | ⟨pr, _, _, _, _, _, _⟩ => pr

/-- Accessor: `node.posterior`. -/
def posteriorOf : Node P → Option P
  | ⟨_, po, _, _, _, _, _⟩ => po

/-- Accessor: `node.level`. -/
def levelOf : Node P → ℕ
  | ⟨_, _, lv, _, _, _, _⟩ => lv

/-- Accessor: `node.split_dimension`. -/
def splitDimension : Node P → ℤ
  | ⟨_, _, _, d, _, _, _⟩ => d

/-- Accessor: `node.split_value`. -/
def splitValue : Node P → Option ℚ
  | ⟨_, _, _, _, sv, _, _⟩ => sv

/-- Accessor: `node.child1`. -/
def child1 : Node P → Option (Node P)
  | ⟨_, _, _, _, _, c1, _⟩ => c1

/-- Accessor: `node.child2`. -/
def child2 : Node P → Option (Node P)
  | ⟨_, _, _, _, _, _, c2⟩ => c2

/-- Embeds `Node.is_leaf` (`base.py`, lines 310–311): `self.split_value is None`. -/
def is_leaf (n : Node P) : Bool := n.splitValue = none

end Node

/-- The accumulator of the per-dimension scan loop of `Node._fit`
(`base.py`, lines 88–112): the running best log-likelihood
`log_p_data_post_best`, `best_split_index` and `best_split_dimension`. -/
structure ScanResult where
  best : ℚ
  bestIndex : ℤ
  bestDim : ℤ
deriving DecidableEq, Repr

/-- One iteration of the `for dim in range(n_dim)` loop of `Node._fit`
(`base.py`, lines 90–112): extract the column, argsort it, compute the
candidate split positions on the *sorted* column, skip the dimension if none
exist, evaluate all candidate splits in one batched call and keep the result
if it strictly beats the running best. -/
def scanStep {P : Type} (M : TreeModel P) (prior : P) (X : List (List ℚ)) (y : List ℚ)
    (nDim : ℕ) (acc : ScanResult) (dim : ℕ) : ScanResult :=
  let X_dim := column X dim
  let sort_indices := argsortQ X_dim
  let X_dim_sorted := reorderQ X_dim sort_indices
  let split_indices := splitIndicesExact X_dim_sorted
  if split_indices = [] then acc
  else
    let y_sorted := reorderQ y sort_indices
    let log_p_data_post_split := M.logPSplit prior y_sorted split_indices nDim
    let i_max := argmaxIdx log_p_data_post_split
    if getQ log_p_data_post_split i_max > acc.best then
      ⟨getQ log_p_data_post_split i_max, (getN split_indices i_max : ℤ), (dim : ℤ)⟩
    else acc

/-- The whole scan loop of `Node._fit` (`base.py`, lines 84–112), starting
from the no-split log-likelihood as the best option so far. -/
def axisScan {P : Type} (M : TreeModel P) (prior : P) (X : List (List ℚ)) (y : List ℚ)
    (nDim : ℕ) (noSplit : ℚ) : ScanResult :=
  (List.range nDim).foldl (scanStep M prior X y nDim) ⟨noSplit, -1, -1⟩

/-- Candidate split positions of dimension `dim` as the axis scan computes
them: positions where the sorted column strictly changes. -/
def dimCandidates (X : List (List ℚ)) (dim : ℕ) : List ℕ :=
  splitIndicesExact (reorderQ (column X dim) (argsortQ (column X dim)))

/-- The batched split log-likelihoods the axis scan requests for dimension
`dim`. -/
def dimLogs {P : Type} (M : TreeModel P) (prior : P) (X : List (List ℚ)) (y : List ℚ)
    (nDim dim : ℕ) : List ℚ :=
  M.logPSplit prior (reorderQ y (argsortQ (column X dim))) (dimCandidates X dim) nDim

/-- The best split log-likelihood available in dimension `dim`
(`log_p_data_post_split[i_max]` for that dimension). -/
def dimBestVal {P : Type} (M : TreeModel P) (prior : P) (X : List (List ℚ)) (y : List ℚ)
    (nDim dim : ℕ) : ℚ :=
  getQ (dimLogs M prior X y nDim dim) (argmaxIdx (dimLogs M prior X y nDim dim))

/-- Embeds `Node._fit` (`base.py`, lines 75–162), with an explicit recursion fuel
(the top-level call passes `y.length`, which always suffices because each
child receives a strictly smaller data slice; the fuel-exhausted case
returns the same leaf node as the no-split branch).  Only the dense (`X` a
`np.ndarray`) code path is embedded; the sparse path extracts the same
columns and rows. -/
def fitAux {P : Type} (M : TreeModel P) : ℕ → P → ℕ → List (List ℚ) → List ℚ → ℚ → Node P
  | 0, prior, level, _, y, _ =>
    ⟨prior, some (M.posterior prior y 1), level, -1, none, none, none⟩
  | fuel + 1, prior, level, X, y, delta =>
    let nDim := numCols X
    let log_p_data_post_no_split := M.logPNoSplit prior y
    let scan := axisScan M prior X y nDim log_p_data_post_no_split
    let post := M.posterior prior y 1
    if scan.bestIndex > 0 then
      let bestDim := scan.bestDim.toNat
      let X_best_split := column X bestDim
      let sort_indices := argsortQ X_best_split
      let X_sorted := reorderRows X sort_indices
      let y_sorted := reorderQ y sort_indices
      let k := scan.bestIndex.toNat
      let X1 := X_sorted.take k
      let X2 := X_sorted.drop k
      let y1 := y_sorted.take k
      let y2 := y_sorted.drop k
      -- `base.py`, lines 134–135: both child priors are computed from `y1`
      let prior_child1 := M.posterior prior y1 delta
      let prior_child2 := M.posterior prior y1 delta
      let split_value := (getQ (column X_sorted bestDim) (k - 1)
        + getQ (column X_sorted bestDim) k) / 2
      let c1 := if X1.length > 1 then fitAux M fuel prior_child1 (level + 1) X1 y1 delta
        else ⟨prior_child1, some (M.posterior prior y1 1), level + 1, -1, none, none, none⟩
      let c2 := if X2.length > 1 then fitAux M fuel prior_child2 (level + 1) X2 y2 delta
        else ⟨prior_child2, some (M.posterior prior y2 1), level + 1, -1, none, none, none⟩
      ⟨prior, some post, level, scan.bestDim, some split_value, some c1, some c2⟩
    else
      ⟨prior, some post, level, -1, none, none, none⟩

/-- Reachability inside a tree: `Reach t m` holds when `m` is `t` itself or
a node of one of its child subtrees. -/
inductive Reach {P : Type} : Node P → Node P → Prop where
  | refl (n : Node P) : Reach n n
  | left {n c m : Node P} : n.child1 = some c → Reach c m → Reach n m
  | right {n c m : Node P} : n.child2 = some c → Reach c m → Reach n m

/-- Dot product of two vectors (`np.dot`, `X @ v` per row). -/
def dot (a b : List ℚ) : ℚ := (a.zipWith (fun x z => x * z) b).sum

/-- The state of `HyperplaneOptimizationFunction`
(`hyperplane_optimization.py`, lines 17–40): data, prior, the no-split
log-likelihood, the split precision, the function-evaluation counter and
the retained best split found so far.  The batched likelihood callback
`compute_log_p_data_split` is passed separately to `OptFn.compute`. -/
structure OptFn (P : Type) where
  X : List (List ℚ)
  y : List ℚ
  prior : P
  log_p_data_no_split : ℚ
  split_precision : ℚ
  function_evaluations : ℕ
  best_log_p_data_split : ℚ
  best_cumulative_distances : ℚ
  best_hyperplane_normal : Option (List ℚ)
  best_hyperplane_origin : Option (List ℚ)

/-- Embeds `HyperplaneOptimizationFunction.__init__`: the best log-likelihood
starts at the no-split value, the best cumulative distance at `0`, and no
best hyperplane is set. -/
def OptFn.init {P : Type} (X : List (List ℚ)) (y : List ℚ) (prior : P)
    (log_p_data_no_split split_precision : ℚ) : OptFn P :=
  ⟨X, y, prior, log_p_data_no_split, split_precision, 0, log_p_data_no_split, 0, none, none⟩

/-- Embeds `projections = self.X @ hyperplane_normal`
(`hyperplane_optimization.py`, line 60). -/
def projectionsOf {P : Type} (s : OptFn P) (normal : List ℚ) : List ℚ :=
  s.X.map (fun row => dot row normal)

/-- Embeds `split_indices = 1 + np.where(np.abs(np.diff(projections)) >
self.split_precision)[0]` (`hyperplane_optimization.py`, lines 62–64):
the difference test is applied to `projections` in original row order —
not to the sorted projections. -/
def splitIdxsOf {P : Type} (s : OptFn P) (normal : List ℚ) : List ℕ :=
  ((List.range ((projectionsOf s normal).length - 1)).filter
    (fun i => |getQ (projectionsOf s normal) (i + 1) - getQ (projectionsOf s normal) i|
      > s.split_precision)).map (· + 1)

/-- Modelled from the spec: «sort points by projection value; candidate
split positions are indices where consecutive sorted projections differ by
more than the split precision».  This is the claimed (sorted) variant of
`splitIdxsOf`, stated for comparison with the code. -/
def splitIdxsSortedSpec {P : Type} (s : OptFn P) (normal : List ℚ) : List ℕ :=
  let sortedProj := reorderQ (projectionsOf s normal) (argsortQ (projectionsOf s normal))
  ((List.range (sortedProj.length - 1)).filter
    (fun i => |getQ sortedProj (i + 1) - getQ sortedProj i| > s.split_precision)).map (· + 1)

/-- Embeds `y_sorted = self.y[sort_indices]` (`hyperplane_optimization.py`,
line 69). -/
def ySortedOf {P : Type} (s : OptFn P) (normal : List ℚ) : List ℚ :=
  reorderQ s.y (argsortQ (projectionsOf s normal))

/-- Embeds `log_p_data_split = self.compute_log_p_data_split(y_sorted, self.prior,
n_dim, split_indices)` (`hyperplane_optimization.py`, lines 72–73), with the
callback `f` abstracting the likelihood model. -/
def logsOf {P : Type} (f : List ℚ → P → ℕ → List ℕ → List ℚ) (s : OptFn P)
    (normal : List ℚ) : List ℚ :=
  f (ySortedOf s normal) s.prior (numCols s.X) (splitIdxsOf s normal)

/-- Embeds `log_p_data_split[i_max]`, the candidate's best split log-likelihood
(`hyperplane_optimization.py`, line 74). -/
def candV {P : Type} (f : List ℚ → P → ℕ → List ℕ → List ℚ) (s : OptFn P)
    (normal : List ℚ) : ℚ :=
  getQ (logsOf f s normal) (argmaxIdx (logsOf f s normal))

/-- Embeds `hyperplane_origin = 0.5 * (p1 + p2)` for the two rows bracketing the
best split position in projection-sorted order
(`hyperplane_optimization.py`, lines 76–83). -/
def candOriginOf {P : Type} (f : List ℚ → P → ℕ → List ℕ → List ℚ) (s : OptFn P)
    (normal : List ℚ) : List ℚ :=
  let sort_indices := argsortQ (projectionsOf s normal)
  let best_split_index := getN (splitIdxsOf s normal) (argmaxIdx (logsOf f s normal))
  let p1 := getRow s.X (getN sort_indices (best_split_index - 1))
  let p2 := getRow s.X (getN sort_indices best_split_index)
  p1.zipWith (fun a b => (a + b) / 2) p2

/-- Embeds `cumulative_distances = np.sum(np.abs(projections -
np.dot(hyperplane_normal, hyperplane_origin)))`
(`hyperplane_optimization.py`, lines 84–85). -/
def candCumOf {P : Type} (f : List ℚ → P → ℕ → List ℕ → List ℚ) (s : OptFn P)
    (normal : List ℚ) : ℚ :=
  ((projectionsOf s normal).map
    (fun p => |p - dot normal (candOriginOf f s normal)|)).sum

/-- Embeds `HyperplaneOptimizationFunction.compute`
(`hyperplane_optimization.py`, lines 42–99), from the projection step on
(the argument `normal` is the hyperplane normal after the hypercube mapping
and sanitization of lines 45–53; those steps are embedded separately as
`sanitizePre`/`unitNormalize` because they leave the rationals).  Returns
the updated objective state and the value handed to the optimizer. -/
def OptFn.compute {P : Type} (f : List ℚ → P → ℕ → List ℕ → List ℚ) (s : OptFn P)
    (normal : List ℚ) : OptFn P × ℚ :=
  let s1 := { s with function_evaluations := s.function_evaluations + 1 }
  if splitIdxsOf s normal = [] then
    (s1, -s.log_p_data_no_split)
  else
    let v := candV f s normal
    if v ≥ s.best_log_p_data_split then
      let hyperplane_origin := candOriginOf f s normal
      let cumulative_distances := candCumOf f s normal
      let is_log_p_better_or_same_but_with_better_distance : Bool :=
        if v > s.best_log_p_data_split then true
        else cumulative_distances > s.best_cumulative_distances
      if is_log_p_better_or_same_but_with_better_distance then
        ({ s1 with
            best_log_p_data_split := v
            best_cumulative_distances := cumulative_distances
            best_hyperplane_normal := some normal
            best_hyperplane_origin := some hyperplane_origin }, -v)
      else (s1, -v)
    else (s1, -v)

/-- An IEEE double as seen by the sanitization step: a finite value, NaN, or
a signed infinity. -/
inductive Fl where
  | finite (q : ℚ)
  | nan
  | posinf
  | neginf
deriving DecidableEq

/-- The largest finite IEEE-754 double, `np.finfo(float).max =
1.7976931348623157e308`, exactly `(2^53 - 1) * 2^971`. -/
def FMAX : ℚ := (2 ^ 53 - 1) * 2 ^ 971

/-- Embeds `np.nan_to_num` with default arguments, applied componentwise: NaN
becomes `0`, `+inf` becomes the largest finite double and `-inf` its
negative (`hyperplane_optimization.py`, line 49). -/
def nanToNum : Fl → ℚ
  | .finite q => q
  | .nan => 0
  | .posinf => FMAX
  | .neginf => -FMAX

/-- Lines 49–51 of `hyperplane_optimization.py`: `hyperplane_normal =
np.nan_to_num(hyperplane_normal)`, then if every component is `0`, set the
first component to `1`. -/
def sanitizePre (v : List Fl) : List ℚ :=
  let w := v.map nanToNum
  if w.all (fun x => x = 0) then w.set 0 1 else w

/-- Sum of squares of a rational vector (`np.linalg.norm(w)**2`). -/
def sumSq (w : List ℚ) : ℚ := (w.map (fun x => x * x)).sum

/-- Sum of squares of a real vector. -/
def sumSqR (w : List ℝ) : ℝ := (w.map (fun x => x * x)).sum

/-- The validation errors `Node.fit` can raise: `check_target` failure
(a `ValueError` of the concrete subclass) and the `delta` range check. -/
inductive FitError where
  | badTarget
  | badDelta
deriving DecidableEq

/-- Embeds `Node.fit` (`base.py`, lines 29–73): `check_target` runs only when
`self.level == 0`; then the `delta ∈ [0, 1]` check; then `_fit`.  The
subclass-specific `check_target` is abstracted as the predicate
`checkFails` (`true` = the check raises). -/
def Node.fit {P : Type} (M : TreeModel P) (checkFails : List ℚ → Bool) (prior : P)
    (level : ℕ) (X : List (List ℚ)) (y : List ℚ) (delta : ℚ) : Except FitError (Node P) :=
  if level = 0 ∧ checkFails y then .error .badTarget
  else if delta < 0 ∨ delta > 1 then .error .badDelta
  else .ok (fitAux M y.length prior level X y delta)

/-- Embeds `np.round` on a scalar: round half to even (banker's rounding), the IEEE
default numpy uses. -/
def qround (q : ℚ) : ℚ :=
  let f : ℤ := ⌊q⌋
  if q - f < 1 / 2 then f
  else if q - f > 1 / 2 then f + 1
  else if f % 2 = 0 then f else f + 1

/-- Embeds `RandomTwoPointOptimizer.solve` (`hyperplane_optimization.py`, lines
165–211), up to its Monte-Carlo loop: raise a `TypeError` when any target is
non-integral (`np.any(np.round(y) != y)`); return without an evaluation when
fewer than two distinct classes are present (`len(set(y)) <= 1`); otherwise
run the loop.  The loop (lines 187–211) draws random points, so it is
abstracted by `loopEvaluations`, the number of objective evaluations it
performs; `.ok n` means the call returned normally after `n` objective
evaluations and `.error ()` that it raised to the caller before any
evaluation. -/
def randomTwoPointSolve (loopEvaluations : ℕ) (y : List ℚ) : Except Unit ℕ :=
  if y.any (fun v => qround v ≠ v) then .error ()
  else if y.dedup.length ≤ 1 then .ok 0
  else .ok loopEvaluations

/-- Embeds `y.max()` (`np.max` of a non-empty array; `0` on the empty list,
which the code never reaches). -/
def maxQ : List ℚ → ℚ
  | [] => 0
  | x :: xs => xs.foldl max x

/-- Embeds Python `int(q)`: truncation toward zero. -/
def pyInt (q : ℚ) : ℤ := if q < 0 then -⌊-q⌋ else ⌊q⌋

/-- Embeds `n_classes = int(y.max()) + 1`
(`hyperplane_optimization.py`, line 183). -/
def nClasses (y : List ℚ) : ℕ := (pyInt (maxQ y)).toNat + 1

/-- Embeds `np.where(y == i)[0]`, the rows of class `i`
(`hyperplane_optimization.py`, line 184). -/
def classIndices (y : List ℚ) (i : ℕ) : List ℕ :=
  (List.range y.length).filter (fun j => getQ y j = (i : ℚ))

/-- Control location inside the nested class-redraw loops of
`RandomTwoPointOptimizer.solve` (lines 191–199): about to draw `class1`, or
about to (re)draw `class2` with `class1` already fixed. -/
inductive RedrawPhase where
  | pickFirst
  | pickSecond (class1 : ℕ)

/-- Small-step embedding of the class-redraw loops of
`RandomTwoPointOptimizer.solve` (lines 188–199): `while len(indices1) == 0
or len(indices2) == 0` draws `class1`, then the inner `while class2 ==
class1` redraws `class2`, and the outer guard re-checks both index lists.
Each step consumes one draw of the random stream `r` (`rand.randint(0,
n_classes)` is the stream value reduced mod `n_classes`) and one unit of
fuel; `some (class1, class2)` is the pair the loop exits with, `none` means
the fuel ran out first.  The loop terminates exactly when some fuel
returns `some`. -/
def redrawAux (y : List ℚ) (r : ℕ → ℕ) : ℕ → ℕ → RedrawPhase → Option (ℕ × ℕ)
  | 0, _, _ => none
  | fuel + 1, k, .pickFirst =>
    let class1 := r k % nClasses y
    redrawAux y r fuel (k + 1) (.pickSecond class1)
  | fuel + 1, k, .pickSecond class1 =>
    let class2 := r k % nClasses y
    if class2 = class1 then redrawAux y r fuel (k + 1) (.pickSecond class1)
    else if classIndices y class1 = [] ∨ classIndices y class2 = [] then
      redrawAux y r fuel (k + 1) .pickFirst
    else some (class1, class2)

/-! ### Simulated annealing and gradient descent (`hyperplane_optimization.py`)

Both strategies call `optimization_function.compute` repeatedly; only the
returned value feeds back into the search, so the objective is abstracted
as a pure function `φ : List ℚ → ℚ` (the lemma
`compute_snd_best_independent` below justifies this: the returned value
does not depend on the mutable `best_*`/counter state).  The pseudo-random
draws of `numpy.random.RandomState` are abstracted as a stream
`u : ℕ → List ℚ` of drawn vectors, consumed left to right. -/

/-- Embeds `np.clip(x, 0, 1)` componentwise. -/
def clip01 (v : List ℚ) : List ℚ := v.map (fun x => min 1 (max 0 x))

/-- Componentwise vector sum. -/
def vecAdd (a b : List ℚ) : List ℚ := a.zipWith (fun x z => x + z) b

/-- Componentwise vector difference. -/
def vecSub (a b : List ℚ) : List ℚ := a.zipWith (fun x z => x - z) b

/-- Scalar times vector. -/
def vecScale (c : ℚ) (v : List ℚ) : List ℚ := v.map (fun x => c * x)

/-- Embeds `candidates[value] = candidate` on the value-keyed candidate dict,
embedded as an association list with distinct keys. -/
def dictInsert (k : ℚ) (v : List ℚ) (d : List (ℚ × List ℚ)) : List (ℚ × List ℚ) :=
  (k, v) :: d.filter (fun p => p.1 ≠ k)

/-- Embeds `candidates[k]` — dict lookup (total, `[]` when absent; the loops only
look up keys that are present). -/
def dictGet (d : List (ℚ × List ℚ)) (k : ℚ) : List ℚ :=
  ((d.find? (fun p => p.1 = k)).map Prod.snd).getD []

/-- Embeds `sorted(candidates.keys())`. -/
def sortedKeys (d : List (ℚ × List ℚ)) : List ℚ :=
  List.insertionSort (fun a b => a ≤ b) (d.map Prod.fst)

/-- The smallest key of the candidate dict (`sorted(candidates.keys())[0]`). -/
def minKey (d : List (ℚ × List ℚ)) : ℚ := getQ (sortedKeys d) 0

/-- The keep-best / improvement-bookkeeping tail shared by the simulated
annealing and gradient descent rounds (`hyperplane_optimization.py`, lines
338–346 and 438–446): sort the keys, keep the `n_keep` smallest, reset the
non-improving counter when the smallest value strictly improves on
`best_value`, else increment it.  Returns the filtered dict and the new
counter. -/
def keepBestTail (n_keep : ℕ) (candidates : List (ℚ × List ℚ)) (best_value : WithTop ℚ)
    (no_improvements : ℕ) : List (ℚ × List ℚ) × ℕ :=
  let values_sorted := (sortedKeys candidates).take n_keep
  (candidates.filter (fun p => p.1 ∈ values_sorted),
    if (getQ values_sorted 0 : WithTop ℚ) < best_value then 0 else no_improvements + 1)

/-- One iteration of the first-run scan shared by both strategies (lines
315–318 and 375–378): draw a vector, evaluate it, store it under its
value. -/
def firstRunStep (φ : List ℚ → ℚ) (u : ℕ → List ℚ)
    (a : List (ℚ × List ℚ) × ℕ) (_ : ℕ) : List (ℚ × List ℚ) × ℕ :=
  let candidate := u a.2
  let value := φ candidate
  (dictInsert value candidate a.1, a.2 + 1)

/-- Constructor parameters of `SimulatedAnnealingOptimizer`. -/
structure SAParams where
  n_scan : ℕ
  n_keep : ℕ
  spread_factor : ℚ

/-- The mutable state of the `SimulatedAnnealingOptimizer.solve` loop
(`hyperplane_optimization.py`, lines 300–346): the candidate dict, the
non-improving-round counter, the best value seen at the start of the last
evolution round (`np.inf` before the first, hence `WithTop ℚ`), the
perturbation scale `f`, and the position in the random stream. -/
structure SAState where
  candidates : List (ℚ × List ℚ)
  no_improvements : ℕ
  best_value : WithTop ℚ
  f : ℚ
  rng : ℕ

/-- One iteration of the evolution loop of
`SimulatedAnnealingOptimizer.solve` (lines 326–334): pick a spread-out
candidate from the sorted snapshot, perturb it by `f` times a fresh random
draw, clip into the unit box, evaluate and store. -/
def saEvoStep (φ : List ℚ → ℚ) (u : ℕ → List ℚ) (f : ℚ) (values_sorted : List ℚ)
    (n_keep : ℕ) (a : List (ℚ × List ℚ) × ℕ) (i : ℕ) : List (ℚ × List ℚ) × ℕ :=
  let i_candidate := i * values_sorted.length / n_keep
  let candidate := dictGet a.1 (getQ values_sorted i_candidate)
  let perturbation := vecScale f (u a.2)
  let new_candidate := clip01 (vecAdd candidate perturbation)
  let value := φ new_candidate
  (dictInsert value new_candidate a.1, a.2 + 1)

/-- One iteration of the `while no_improvements < 50` loop of
`SimulatedAnnealingOptimizer.solve`: the first-run scan (lines 313–318) or
the evolution step (lines 319–336), followed by the keep-best /
improvement bookkeeping shared tail (lines 338–346). -/
def saRound (φ : List ℚ → ℚ) (u : ℕ → List ℚ) (ps : SAParams) (st : SAState) : SAState :=
  let st1 :=
    if st.candidates = [] then
      let dr := (List.range ps.n_scan).foldl (firstRunStep φ u) (st.candidates, st.rng)
      { st with candidates := dr.1, rng := dr.2 }
    else
      let dr := (List.range ps.n_keep).foldl
        (saEvoStep φ u st.f (sortedKeys st.candidates) ps.n_keep) (st.candidates, st.rng)
      { st with candidates := dr.1, rng := dr.2,
                best_value := (minKey st.candidates : ℚ),
                f := st.f * ps.spread_factor }
  let tail := keepBestTail ps.n_keep st1.candidates st1.best_value st1.no_improvements
  { st1 with candidates := tail.1, no_improvements := tail.2 }

/-- The `while no_improvements < 50` loop, indexed by fuel: `none` when the
fuel runs out before the loop exits (the termination theorem produces a
sufficient fuel). -/
def saLoop (φ : List ℚ → ℚ) (u : ℕ → List ℚ) (ps : SAParams) :
    ℕ → SAState → Option SAState
  | 0, st => if st.no_improvements < 50 then none else some st
  | fuel + 1, st =>
    if st.no_improvements < 50 then saLoop φ u ps fuel (saRound φ u ps st) else some st

/-- Embeds `SimulatedAnnealingOptimizer.solve`: run the loop from the empty
candidate dict, `no_improvements = 0`, `best_value = np.inf`, `f = 1`. -/
def saSolve (φ : List ℚ → ℚ) (u : ℕ → List ℚ) (ps : SAParams) (fuel : ℕ) :
    Option SAState :=
  saLoop φ u ps fuel ⟨[], 0, ⊤, 1, 0⟩

/-- Constructor parameters of `GradientDescentOptimizer`. -/
structure GDParams where
  n_init : ℕ
  n_keep : ℕ

/-- The mutable state of the `GradientDescentOptimizer.solve` loop
(`hyperplane_optimization.py`, lines 360–446). -/
structure GDState where
  candidates : List (ℚ × List ℚ)
  no_improvements : ℕ
  best_value : WithTop ℚ
  start_delta : ℚ
  rng : ℕ

/-- The `for i_dim in range(n_dim)` finite-difference pass of
`GradientDescentOptimizer.solve` (lines 394–406): one objective evaluation
per dimension, the step flipped in sign when it would leave the unit box;
returns `(gradient, |delta|, delta_too_small)`, breaking out on the first
exactly-zero gradient component. -/
def gradPassAux (φ : List ℚ → ℚ) (candidate : List ℚ) (value : ℚ) :
    List ℚ → ℚ → List ℕ → List ℚ × ℚ × Bool
  | grad, δ, [] => (grad, δ, false)
  | grad, δ, i :: rest =>
    let δ1 := if getQ candidate i + δ > 1 then -δ else δ
    let new_candidate := candidate.set i (getQ candidate i + δ1)
    let new_value := φ new_candidate
    let g := (new_value - value) / δ1
    let δ2 := |δ1|
    if g = 0 then (grad.set i g, δ2, true)
    else gradPassAux φ candidate value (grad.set i g) δ2 rest

/-- The `while True` step-widening loop around the finite-difference pass
(lines 391–414): widen `delta` tenfold while some gradient component is
exactly zero; give up (`none`) once `delta >= 1`.  Fuel-indexed; the lemma
`widenLoop_stable` shows the fuel `widenFuel δ` used by `gdInner` always
suffices, i.e. the Python loop exits after at most that many rounds. -/
def widenLoop (φ : List ℚ → ℚ) (candidate : List ℚ) (value : ℚ) (nDim : ℕ) :
    ℕ → ℚ → Option (List ℚ × ℚ)
  | 0, _ => none
  | fuel + 1, δ =>
    match gradPassAux φ candidate value (List.replicate nDim 0) δ (List.range nDim) with
    | (grad, δ', false) => some (grad, δ')
    | (_, δ', true) =>
      let δ'' := δ' * 10
      if δ'' ≥ 1 then none else widenLoop φ candidate value nDim fuel δ''

/-- Fuel that always suffices for `widenLoop` at positive `δ`:
`δ * 10 ^ δ.den ≥ 1`, so at most `δ.den` widenings can happen. -/
def widenFuel (δ : ℚ) : ℕ := δ.den + 1

/-- The doubling line search of `GradientDescentOptimizer.solve`
(lines 421–434): double the step while the objective value keeps strictly
improving.  Fuel-indexed; with values drawn from a finite set the strict
decrease bounds the number of rounds (`lineSearch_sufficient`). -/
def lineSearch (φ : List ℚ → ℚ) (candidate gradient : List ℚ) :
    ℕ → ℚ → ℚ → List ℚ → Option (ℚ × List ℚ)
  | 0, _, _, _ => none
  | fuel + 1, lam, best_new_value, best_new_candidate =>
    let new_candidate := clip01 (vecSub candidate (vecScale lam gradient))
    let new_value := φ new_candidate
    if new_value < best_new_value then
      lineSearch φ candidate gradient fuel (2 * lam) new_value new_candidate
    else some (best_new_value, best_new_candidate)

/-- The `for i in range(n_keep)` evolution loop of
`GradientDescentOptimizer.solve` (lines 383–436), threading the candidate
dict and the persistent `start_delta` through the iterations; `none`
signals an exhausted line-search fuel (never happens at the fuel chosen by
the termination theorem). -/
def gdInner (φ : List ℚ → ℚ) (n_keep lsFuel nDim : ℕ) (values_sorted : List ℚ) :
    List ℕ → List (ℚ × List ℚ) × ℚ → Option (List (ℚ × List ℚ) × ℚ)
  | [], a => some a
  | i :: rest, (d, start_delta) =>
    let i_candidate := i * values_sorted.length / n_keep
    let value := getQ values_sorted i_candidate
    let candidate := dictGet d value
    match widenLoop φ candidate value nDim (widenFuel start_delta) start_delta with
    | none => gdInner φ n_keep lsFuel nDim values_sorted rest (d, start_delta)
    | some (gradient, δ) =>
      match lineSearch φ candidate gradient lsFuel (1 / 1000000) value candidate with
      | none => none
      | some (best_new_value, best_new_candidate) =>
        gdInner φ n_keep lsFuel nDim values_sorted rest
          (dictInsert best_new_value best_new_candidate d, δ / 10)

/-- One iteration of the `while no_improvements < 3` loop of
`GradientDescentOptimizer.solve`: first-run scan (lines 373–378) or
evolution (lines 379–436), then the shared keep-best / improvement tail
(lines 438–446). -/
def gdRound (φ : List ℚ → ℚ) (u : ℕ → List ℚ) (ps : GDParams) (lsFuel nDim : ℕ)
    (st : GDState) : Option GDState :=
  let st1? :=
    if st.candidates = [] then
      let dr := (List.range ps.n_init).foldl (firstRunStep φ u) (st.candidates, st.rng)
      some { st with candidates := dr.1, rng := dr.2 }
    else
      match gdInner φ ps.n_keep lsFuel nDim (sortedKeys st.candidates)
        (List.range ps.n_keep) (st.candidates, st.start_delta) with
      | none => none
      | some (d, sd) =>
        some { st with
            candidates := d
            start_delta := sd
            best_value := (minKey st.candidates : ℚ) }
  match st1? with
  | none => none
  | some st1 =>
    let tail := keepBestTail ps.n_keep st1.candidates st1.best_value st1.no_improvements
    some { st1 with candidates := tail.1, no_improvements := tail.2 }

/-- The `while no_improvements < 3` loop, fuel-indexed. -/
def gdLoop (φ : List ℚ → ℚ) (u : ℕ → List ℚ) (ps : GDParams) (lsFuel nDim : ℕ) :
    ℕ → GDState → Option GDState
  | 0, st => if st.no_improvements < 3 then none else some st
  | fuel + 1, st =>
    if st.no_improvements < 3 then
      match gdRound φ u ps lsFuel nDim st with
      | none => none
      | some st' => gdLoop φ u ps lsFuel nDim fuel st'
    else some st

/-- Embeds `GradientDescentOptimizer.solve`: run the loop from the empty dict,
`no_improvements = 0`, `best_value = np.inf`, `start_delta = 1e-6`. -/
def gdSolve (φ : List ℚ → ℚ) (u : ℕ → List ℚ) (ps : GDParams) (lsFuel nDim fuel : ℕ) :
    Option GDState :=
  gdLoop φ u ps lsFuel nDim fuel ⟨[], 0, ⊤, 1 / 1000000, 0⟩

/-- All values the hyperplane objective can return for a given data/prior
instance: the negated no-split log-likelihood, and the negated best batched
log-likelihood over every reordering of `y` and every candidate-position
subset.  A finite list — the heart of the optimizer-termination argument. -/
def objValueCandidates {P : Type} (f : List ℚ → P → ℕ → List ℕ → List ℚ)
    (s : OptFn P) : List ℚ :=
  -s.log_p_data_no_split ::
    s.y.permutations.flatMap (fun ys =>
      (((List.range (s.X.length - 1)).map (· + 1)).sublists.map (fun idxs =>
        -(getQ (f ys s.prior (numCols s.X) idxs)
          (argmaxIdx (f ys s.prior (numCols s.X) idxs))))))

/-! ### Concrete instances used by the evaluation theorems and witnesses -/

/-- A small concrete likelihood model (`P = ℚ`): any split scores `1`
against a no-split score of `0`, and the posterior accumulates the damped
target sum, so posteriors computed from different target slices differ. -/
def demoModel : TreeModel ℚ where
  logPNoSplit := fun _ _ => 0
  logPSplit := fun _ _ idxs _ => idxs.map (fun _ => 1)
  posterior := fun pr ys δ => pr + (1 + δ) * ys.sum

/-- A concrete batched-likelihood callback for the hyperplane objective:
the candidate at position `i` scores `i`. -/
def demoF : List ℚ → ℚ → ℕ → List ℕ → List ℚ := fun _ _ _ idxs => idxs.map (fun i => (i : ℚ))

/-- A 3-point 1-feature objective instance whose middle row has the largest
feature value, so row order and projection-sorted order differ. -/
def demoOpt : OptFn ℚ := OptFn.init [[0], [1], [0]] [1, 2, 3] 0 5 (1 / 2)

/-- A 2-point objective instance with two separable points. -/
def demoOptSplit : OptFn ℚ := OptFn.init [[0], [1]] [1, 2] 0 5 (1 / 10)

/-- A 2-point objective instance with two coincident points: no candidate
split position exists for any normal. -/
def demoOptFlat : OptFn ℚ := OptFn.init [[0], [0]] [1, 2] 0 5 (1 / 10)

/-! ## Theorems -/

/-- C1: The claim states that each child's prior is derived from its own
data partition (`prior_child1` from `y1`, `prior_child2` from `y2`).  The
code (`base.py`, lines 134–135) computes *both* from `y1`.  Evaluating the
embedded `_fit` at a two-point data set that splits into `y1 = [10]`,
`y2 = [20]` with `delta = 0`: child 2's prior is the posterior computed from
`y1` (namely `10`), not the posterior computed from `y2` (namely `20`). -/
theorem claim_C1_child2_prior_computed_from_y1 :
    (fitAux demoModel 2 0 0 [[0], [1]] [10, 20] 0).child2.map Node.priorOf
        = some (demoModel.posterior 0 [10] 0)
      ∧ demoModel.posterior 0 [10] 0 = 10
      ∧ demoModel.posterior 0 [20] 0 = 20
      ∧ (fitAux demoModel 2 0 0 [[0], [1]] [10, 20] 0).child2.map Node.priorOf
        ≠ some (demoModel.posterior 0 [20] 0) := by
  refine ⟨?_, ?_, ?_, ?_⟩ <;>
  norm_num [fitAux, axisScan, scanStep, splitIndicesExact, argsortQ, insertIdx,
    reorderQ, reorderRows, argmaxIdx, getQ, getN, getRow, column, numCols, demoModel,
    List.range_succ, Node.child2, Node.priorOf]

/-- C2: The claim states the consecutive-difference test runs on the
*sorted* projections.  The code (`hyperplane_optimization.py`, lines 61–63)
computes `sort_indices` but applies `np.diff` to the projections in original
row order.  On projections `[0, 1, 0]` (precision `1/2`) the code yields
candidate positions `[1, 2]` — position 1 would split between the two points
with *equal* projection `0` — while the sorted test yields `[2]`. -/
theorem claim_C2_split_positions_use_unsorted_projections :
    projectionsOf demoOpt [1] = [0, 1, 0]
      ∧ splitIdxsOf demoOpt [1] = [1, 2]
      ∧ splitIdxsSortedSpec demoOpt [1] = [2]
      ∧ splitIdxsOf demoOpt [1] ≠ splitIdxsSortedSpec demoOpt [1] := by
  refine ⟨?_, ?_, ?_, ?_⟩ <;>
  norm_num [splitIdxsOf, splitIdxsSortedSpec, projectionsOf, argsortQ, insertIdx,
    reorderQ, getQ, dot, demoOpt, OptFn.init, List.range_succ]

/-- Unfolding of one scan-loop iteration in terms of the per-dimension
candidate/likelihood abbreviations. -/
theorem scanStep_eq {P : Type} (M : TreeModel P) (prior : P) (X : List (List ℚ))
    (y : List ℚ) (nDim : ℕ) (acc : ScanResult) (dim : ℕ) :
    scanStep M prior X y nDim acc dim =
      if dimCandidates X dim = [] then acc
      else if dimBestVal M prior X y nDim dim > acc.best then
        ⟨dimBestVal M prior X y nDim dim,
          (getN (dimCandidates X dim) (argmaxIdx (dimLogs M prior X y nDim dim)) : ℤ),
          (dim : ℤ)⟩
      else acc := rfl

/-- The first-maximum index of a non-empty list is in bounds. -/
theorem argmaxIdx_lt_length (l : List ℚ) (h : l ≠ []) : argmaxIdx l < l.length := by
  induction l with
  | nil => exact absurd rfl h
  | cons x xs ih =>
    unfold argmaxIdx
    by_cases hxs : xs = []
    · subst hxs; simp
    · simp only []
      split
      · exact Nat.succ_lt_succ (ih hxs)
      · simp

/-- In-bounds total indexing returns a list member. -/
theorem getN_mem (xs : List ℕ) (i : ℕ) (h : i < xs.length) : getN xs i ∈ xs := by
  unfold getN
  rw [List.getD_eq_getElem xs 0 h]
  exact List.getElem_mem h

/-- Every candidate split position is at least `1` (they are `1 +` an index
of a strict change). -/
theorem splitIndicesExact_pos (v : List ℚ) : ∀ i ∈ splitIndicesExact v, 1 ≤ i := by
  intro i hi
  unfold splitIndicesExact at hi
  rcases List.mem_map.mp hi with ⟨j, _, rfl⟩
  omega

/-- Invariant of the axis-scan fold after `k` dimensions: either nothing
beat the no-split value yet and the accumulator is untouched, or the
accumulator records some dimension `d` whose best value strictly exceeds
the no-split value, is maximal among the dimensions scanned so far, and
strictly exceeds every *earlier* dimension's best (the tie-break). -/
theorem axisScan_inv {P : Type} (M : TreeModel P) (prior : P) (X : List (List ℚ))
    (y : List ℚ) (nDim : ℕ) (noSplit : ℚ) (k : ℕ) :
    ((List.range k).foldl (scanStep M prior X y nDim) ⟨noSplit, -1, -1⟩
        = (⟨noSplit, -1, -1⟩ : ScanResult)
      ∧ ∀ d < k, dimCandidates X d ≠ [] → dimBestVal M prior X y nDim d ≤ noSplit)
    ∨ (∃ d < k, dimCandidates X d ≠ []
        ∧ (let acc := (List.range k).foldl (scanStep M prior X y nDim) ⟨noSplit, -1, -1⟩
          acc.bestDim = (d : ℤ)
          ∧ acc.best = dimBestVal M prior X y nDim d
          ∧ noSplit < acc.best
          ∧ acc.bestIndex
            = (getN (dimCandidates X d) (argmaxIdx (dimLogs M prior X y nDim d)) : ℤ)
          ∧ (∀ e < k, dimCandidates X e ≠ [] → dimBestVal M prior X y nDim e ≤ acc.best)
          ∧ (∀ e < d, dimCandidates X e ≠ [] → dimBestVal M prior X y nDim e < acc.best))) := by
  induction k with
  | zero => left; exact ⟨rfl, fun d hd => absurd hd (Nat.not_lt_zero d)⟩
  | succ k ih =>
    have hstep : (List.range (k + 1)).foldl (scanStep M prior X y nDim) ⟨noSplit, -1, -1⟩
        = scanStep M prior X y nDim
          ((List.range k).foldl (scanStep M prior X y nDim) ⟨noSplit, -1, -1⟩) k := by
      rw [List.range_succ, List.foldl_append, List.foldl_cons, List.foldl_nil]
    set acc := (List.range k).foldl (scanStep M prior X y nDim) ⟨noSplit, -1, -1⟩ with hacc
    by_cases hck : dimCandidates X k = []
    · have hstep' : (List.range (k + 1)).foldl (scanStep M prior X y nDim) ⟨noSplit, -1, -1⟩
          = acc := by rw [hstep, scanStep_eq, if_pos hck]
      rcases ih with ⟨h1, h2⟩ | ⟨d, hd, hcd, hrest⟩
      · left
        refine ⟨by rw [hstep', h1], fun d hd hcd => ?_⟩
        rcases Nat.lt_succ_iff_lt_or_eq.mp hd with hd' | rfl
        · exact h2 d hd' hcd
        · exact absurd hck (by simpa using hcd)
      · right
        refine ⟨d, Nat.lt_succ_of_lt hd, hcd, ?_⟩
        rw [hstep']
        obtain ⟨hA, hB, hC, hD, hE, hF⟩ := hrest
        refine ⟨hA, hB, hC, hD, fun e he hce => ?_, hF⟩
        rcases Nat.lt_succ_iff_lt_or_eq.mp he with he' | rfl
        · exact hE e he' hce
        · exact absurd hck (by simpa using hce)
    · by_cases hup : dimBestVal M prior X y nDim k > acc.best
      · have hstep' : (List.range (k + 1)).foldl (scanStep M prior X y nDim) ⟨noSplit, -1, -1⟩
            = ⟨dimBestVal M prior X y nDim k,
                (getN (dimCandidates X k) (argmaxIdx (dimLogs M prior X y nDim k)) : ℤ),
                (k : ℤ)⟩ := by
          rw [hstep, scanStep_eq, if_neg hck, if_pos hup]
        have haccge : noSplit ≤ acc.best := by
          rcases ih with ⟨h1, _⟩ | ⟨d, hd, hcd, _, hB, hC, _⟩
          · rw [h1]
          · exact le_of_lt hC
        have hprev_le : ∀ e < k, dimCandidates X e ≠ [] →
            dimBestVal M prior X y nDim e ≤ acc.best := by
          rcases ih with ⟨h1, h2⟩ | ⟨d, hd, hcd, _, hB, hC, _, hE, hF⟩
          · intro e he hce
            rw [h1]
            exact h2 e he hce
          · exact hE
        right
        refine ⟨k, Nat.lt_succ_self k, hck, ?_⟩
        rw [hstep']
        refine ⟨rfl, rfl, lt_of_le_of_lt haccge hup, rfl, fun e he hce => ?_,
          fun e he hce => ?_⟩
        · rcases Nat.lt_succ_iff_lt_or_eq.mp he with he' | rfl
          · exact le_of_lt (lt_of_le_of_lt (hprev_le e he' hce) hup)
          · exact le_refl _
        · exact lt_of_le_of_lt (hprev_le e he hce) hup
      · have hstep' : (List.range (k + 1)).foldl (scanStep M prior X y nDim) ⟨noSplit, -1, -1⟩
            = acc := by rw [hstep, scanStep_eq, if_neg hck, if_neg hup]
        rcases ih with ⟨h1, h2⟩ | ⟨d, hd, hcd, hA, hB, hC, hD, hE, hF⟩
        · left
          refine ⟨by rw [hstep', h1], fun d hd hcd => ?_⟩
          rcases Nat.lt_succ_iff_lt_or_eq.mp hd with hd' | rfl
          · exact h2 d hd' hcd
          · have : acc.best = noSplit := by rw [h1]
            rw [← this]
            exact le_of_not_lt hup
        · right
          refine ⟨d, Nat.lt_succ_of_lt hd, hcd, ?_⟩
          rw [hstep']
          refine ⟨hA, hB, hC, hD, fun e he hce => ?_, hF⟩
          rcases Nat.lt_succ_iff_lt_or_eq.mp he with he' | rfl
          · exact hE e he' hce
          · exact le_of_not_lt hup

/-- When a dimension has candidates, the recorded best split index for that
dimension is positive (candidate positions start at `1`; needs the
likelihood-model contract that the batched call returns one value per
candidate). -/
theorem dimBestIndex_pos {P : Type} (M : TreeModel P) (prior : P) (X : List (List ℚ))
    (y : List ℚ) (nDim : ℕ)
    (Hlen : ∀ ys idxs, (M.logPSplit prior ys idxs nDim).length = idxs.length)
    (d : ℕ) (h : dimCandidates X d ≠ []) :
    1 ≤ getN (dimCandidates X d) (argmaxIdx (dimLogs M prior X y nDim d)) := by
  have hlen : (dimLogs M prior X y nDim d).length = (dimCandidates X d).length := Hlen _ _
  have hne : dimLogs M prior X y nDim d ≠ [] := by
    intro hc
    rw [hc] at hlen
    simp at hlen
    exact h (List.eq_nil_of_length_eq_zero hlen.symm)
  have harg := argmaxIdx_lt_length _ hne
  rw [hlen] at harg
  exact splitIndicesExact_pos _ _ (getN_mem _ _ harg)

/-- A fitted node is internal exactly when the scan found a positive best
split index (`if best_split_index > 0`, `base.py` line 116). -/
theorem fitAux_internal_iff {P : Type} (M : TreeModel P) (prior : P) (level : ℕ)
    (X : List (List ℚ)) (y : List ℚ) (delta : ℚ) (fuel : ℕ) :
    (fitAux M (fuel + 1) prior level X y delta).is_leaf = false
      ↔ 0 < (axisScan M prior X y (numCols X) (M.logPNoSplit prior y)).bestIndex := by
  simp only [fitAux]
  split_ifs with h <;> simp_all [Node.is_leaf, Node.splitValue]

/-- C3: a node fitted by the axis-split search becomes internal exactly when
some dimension offers a candidate split whose log-likelihood strictly
exceeds the no-split log-likelihood (otherwise it stays a leaf), and when an
earlier dimension achieves the same best value as a later one, the later
dimension is never the recorded best (the scan updates only on strict
improvement, so ties keep the first dimension scanned). -/
theorem claim_C3_axis_scan_strict_improvement_and_ties {P : Type} (M : TreeModel P)
    (prior : P) (level : ℕ) (X : List (List ℚ)) (y : List ℚ) (delta : ℚ) (fuel : ℕ)
    (Hlen : ∀ ys idxs, (M.logPSplit prior ys idxs (numCols X)).length = idxs.length) :
    ((fitAux M (fuel + 1) prior level X y delta).is_leaf = false
        ↔ ∃ d < numCols X, dimCandidates X d ≠ []
            ∧ M.logPNoSplit prior y < dimBestVal M prior X y (numCols X) d)
      ∧ (∀ d1 d2 : ℕ, d1 < d2 → d2 < numCols X →
          dimCandidates X d1 ≠ [] → dimCandidates X d2 ≠ [] →
          dimBestVal M prior X y (numCols X) d1 = dimBestVal M prior X y (numCols X) d2 →
          (axisScan M prior X y (numCols X) (M.logPNoSplit prior y)).bestDim ≠ (d2 : ℤ)) := by
  have hinv := axisScan_inv M prior X y (numCols X) (M.logPNoSplit prior y) (numCols X)
  constructor
  · rw [fitAux_internal_iff]
    unfold axisScan
    constructor
    · intro hpos
      rcases hinv with ⟨h1, _⟩ | ⟨d, hd, hcd, _, hB, hC, _⟩
      · rw [h1] at hpos
        exact absurd hpos (by norm_num)
      · exact ⟨d, hd, hcd, by rw [← hB]; exact hC⟩
    · intro ⟨d, hd, hcd, hgt⟩
      rcases hinv with ⟨_, h2⟩ | ⟨e, he, hce, _, hB, hC, hD, _⟩
      · exact absurd hgt (not_lt_of_le (h2 d hd hcd))
      · rw [hD]
        have := dimBestIndex_pos M prior X y (numCols X) Hlen e hce
        omega
  · intro d1 d2 h12 hd2 hc1 hc2 heq hdim
    unfold axisScan at hdim
    rcases hinv with ⟨h1, _⟩ | ⟨e, he, hce, hA, hB, hC, _, hE, hF⟩
    · rw [h1] at hdim
      simp at hdim
    · rw [hA] at hdim
      have hede : e = d2 := by exact_mod_cast hdim
      subst hede
      have hlt := hF d1 h12 hc1
      rw [hB] at hlt
      exact absurd heq (ne_of_lt hlt)

/-- Witness for C3 at the concrete model and two-point data set: the
likelihood-model length contract holds and the equivalences follow. -/
theorem claim_C3_axis_scan_witness :
    (∀ ys idxs,
        (demoModel.logPSplit 0 ys idxs (numCols [[0], [1]])).length = idxs.length)
      ∧ (((fitAux demoModel 1 0 0 [[0], [1]] [10, 20] 0).is_leaf = false
          ↔ ∃ d < numCols [[0], [1]], dimCandidates [[0], [1]] d ≠ []
              ∧ demoModel.logPNoSplit 0 [10, 20]
                < dimBestVal demoModel 0 [[0], [1]] [10, 20] (numCols [[0], [1]]) d)
        ∧ (∀ d1 d2 : ℕ, d1 < d2 → d2 < numCols [[0], [1]] →
            dimCandidates [[0], [1]] d1 ≠ [] → dimCandidates [[0], [1]] d2 ≠ [] →
            dimBestVal demoModel 0 [[0], [1]] [10, 20] (numCols [[0], [1]]) d1
              = dimBestVal demoModel 0 [[0], [1]] [10, 20] (numCols [[0], [1]]) d2 →
            (axisScan demoModel 0 [[0], [1]] [10, 20] (numCols [[0], [1]])
              (demoModel.logPNoSplit 0 [10, 20])).bestDim ≠ (d2 : ℤ))) :=
  ⟨fun ys idxs => by simp [demoModel],
    claim_C3_axis_scan_strict_improvement_and_ties demoModel 0 0 [[0], [1]] [10, 20] 0 0
      (fun ys idxs => by simp [demoModel])⟩

/-- Reachability from a node with no children only reaches the node
itself. -/
theorem reach_no_children {P : Type} {pr : P} {po : Option P} {lv : ℕ} {d : ℤ}
    {m : Node P} (h : Reach (Node.mk pr po lv d none none none) m) :
    m = Node.mk pr po lv d none none none := by
  cases h with
  | refl => rfl
  | left h1 _ => simp [Node.child1] at h1
  | right h1 _ => simp [Node.child2] at h1

/-- Every node of a fitted tree has either no split value and no children,
or a split value and both children: `_fit` creates the two children and the
split value together (`base.py` lines 137–152) or none of them. -/
theorem fitAux_shape {P : Type} (M : TreeModel P) :
    ∀ (fuel : ℕ) (prior : P) (level : ℕ) (X : List (List ℚ)) (y : List ℚ) (delta : ℚ)
      (m : Node P), Reach (fitAux M fuel prior level X y delta) m →
      (m.splitValue = none ∧ m.child1 = none ∧ m.child2 = none)
      ∨ ((m.splitValue).isSome ∧ (m.child1).isSome ∧ (m.child2).isSome) := by
  intro fuel
  induction fuel with
  | zero =>
    intro prior level X y delta m hr
    left
    rw [reach_no_children hr]
    exact ⟨rfl, rfl, rfl⟩
  | succ fuel ih =>
    intro prior level X y delta m hr
    simp only [fitAux] at hr
    split at hr
    · cases hr with
      | refl => right; exact ⟨rfl, rfl, rfl⟩
      | left h1 hr' =>
        simp only [Node.child1, Option.some.injEq] at h1
        subst h1
        split at hr'
        · exact ih _ _ _ _ _ _ hr'
        · left
          rw [reach_no_children hr']
          exact ⟨rfl, rfl, rfl⟩
      | right h1 hr' =>
        simp only [Node.child2, Option.some.injEq] at h1
        subst h1
        split at hr'
        · exact ih _ _ _ _ _ _ hr'
        · left
          rw [reach_no_children hr']
          exact ⟨rfl, rfl, rfl⟩
    · left
      rw [reach_no_children hr]
      exact ⟨rfl, rfl, rfl⟩

/-- C4: in a trained tree, for every reachable node the conditions
`is_leaf`, «split value absent» and «both children absent» are equivalent,
and no reachable node has exactly one child. -/
theorem claim_C4_leaf_children_invariant {P : Type} (M : TreeModel P)
    (checkFails : List ℚ → Bool) (prior : P) (level : ℕ) (X : List (List ℚ))
    (y : List ℚ) (delta : ℚ) (t m : Node P)
    (hfit : Node.fit M checkFails prior level X y delta = .ok t)
    (hreach : Reach t m) :
    (m.is_leaf = true ↔ m.splitValue = none)
      ∧ (m.splitValue = none ↔ (m.child1 = none ∧ m.child2 = none))
      ∧ ¬((m.child1).isSome ∧ m.child2 = none)
      ∧ ¬(m.child1 = none ∧ (m.child2).isSome) := by
  have ht : t = fitAux M y.length prior level X y delta := by
    unfold Node.fit at hfit
    split_ifs at hfit
    all_goals simp_all
  subst ht
  rcases fitAux_shape M y.length prior level X y delta m hreach with
    ⟨h1, h2, h3⟩ | ⟨h1, h2, h3⟩
  · refine ⟨by simp [Node.is_leaf], by simp [h1, h2, h3], by simp [h2, h3],
      by simp [h2, h3]⟩
  · rcases Option.isSome_iff_exists.mp h1 with ⟨sv, hsv⟩
    rcases Option.isSome_iff_exists.mp h2 with ⟨c1, hc1⟩
    rcases Option.isSome_iff_exists.mp h3 with ⟨c2, hc2⟩
    refine ⟨by simp [Node.is_leaf], by simp [hsv, hc1, hc2], by simp [hc1, hc2],
      by simp [hc1, hc2]⟩

/-- Witness for C4 at the concrete two-point fit, taking `m` to be the root
of the trained tree. -/
theorem claim_C4_leaf_children_invariant_witness :
    Node.fit demoModel (fun _ => false) 0 0 [[0], [1]] [10, 20] 0
        = .ok (fitAux demoModel 2 0 0 [[0], [1]] [10, 20] 0)
      ∧ (((fitAux demoModel 2 0 0 [[0], [1]] [10, 20] 0).is_leaf = true
          ↔ (fitAux demoModel 2 0 0 [[0], [1]] [10, 20] 0).splitValue = none)
        ∧ ((fitAux demoModel 2 0 0 [[0], [1]] [10, 20] 0).splitValue = none
          ↔ ((fitAux demoModel 2 0 0 [[0], [1]] [10, 20] 0).child1 = none
            ∧ (fitAux demoModel 2 0 0 [[0], [1]] [10, 20] 0).child2 = none))
        ∧ ¬(((fitAux demoModel 2 0 0 [[0], [1]] [10, 20] 0).child1).isSome
            ∧ (fitAux demoModel 2 0 0 [[0], [1]] [10, 20] 0).child2 = none)
        ∧ ¬((fitAux demoModel 2 0 0 [[0], [1]] [10, 20] 0).child1 = none
            ∧ ((fitAux demoModel 2 0 0 [[0], [1]] [10, 20] 0).child2).isSome)) :=
  ⟨by norm_num [Node.fit],
    claim_C4_leaf_children_invariant demoModel (fun _ => false) 0 0 [[0], [1]] [10, 20] 0 _ _
      (by norm_num [Node.fit]) (Reach.refl _)⟩

/-- C5: The acceptance rule of the hyperplane objective: whenever a
candidate split exists, the retained best is replaced exactly when the
candidate's log-likelihood strictly exceeds the retained one, or equals it
with a strictly greater cumulative absolute projection distance; otherwise
only the evaluation counter changes. -/
theorem claim_C5_accept_rule {P : Type} (f : List ℚ → P → ℕ → List ℕ → List ℚ)
    (s : OptFn P) (normal : List ℚ) (h : splitIdxsOf s normal ≠ []) :
    (OptFn.compute f s normal).1 =
      if candV f s normal > s.best_log_p_data_split
          ∨ (candV f s normal = s.best_log_p_data_split
            ∧ candCumOf f s normal > s.best_cumulative_distances) then
        { s with
            function_evaluations := s.function_evaluations + 1
            best_log_p_data_split := candV f s normal
            best_cumulative_distances := candCumOf f s normal
            best_hyperplane_normal := some normal
            best_hyperplane_origin := some (candOriginOf f s normal) }
      else { s with function_evaluations := s.function_evaluations + 1 } := by
  unfold OptFn.compute
  rw [if_neg h]
  by_cases hgt : candV f s normal > s.best_log_p_data_split
  · rw [if_pos (le_of_lt hgt), if_pos (by simp [hgt]), if_pos (Or.inl hgt)]
  · by_cases heq : candV f s normal = s.best_log_p_data_split
    · rw [if_pos (le_of_eq heq.symm)]
      by_cases hcum : candCumOf f s normal > s.best_cumulative_distances
      · rw [if_pos (by simp [hgt, hcum]), if_pos (Or.inr ⟨heq, hcum⟩)]
      · rw [if_neg (by simp [hgt, hcum]), if_neg (by simp [hgt, heq, hcum])]
    · rw [if_neg (fun hle => hgt (lt_of_le_of_ne hle (Ne.symm heq))),
        if_neg (by simp [hgt, heq])]

/-- Witness for C5: on the concrete two-point instance the hypothesis holds
and the update fires (`candV = 1 < 5` initially retained — the else branch),
exercising the theorem at explicit inputs. -/
theorem claim_C5_accept_rule_witness :
    splitIdxsOf demoOptSplit [1] ≠ []
      ∧ (OptFn.compute demoF demoOptSplit [1]).1 =
        if candV demoF demoOptSplit [1] > demoOptSplit.best_log_p_data_split
            ∨ (candV demoF demoOptSplit [1] = demoOptSplit.best_log_p_data_split
              ∧ candCumOf demoF demoOptSplit [1]
                > demoOptSplit.best_cumulative_distances) then
          { demoOptSplit with
              function_evaluations := demoOptSplit.function_evaluations + 1
              best_log_p_data_split := candV demoF demoOptSplit [1]
              best_cumulative_distances := candCumOf demoF demoOptSplit [1]
              best_hyperplane_normal := some [1]
              best_hyperplane_origin := some (candOriginOf demoF demoOptSplit [1]) }
        else { demoOptSplit with
            function_evaluations := demoOptSplit.function_evaluations + 1 } :=
  ⟨by norm_num [splitIdxsOf, projectionsOf, getQ, dot, demoOptSplit, OptFn.init,
      List.range_succ],
    claim_C5_accept_rule demoF demoOptSplit [1]
      (by norm_num [splitIdxsOf, projectionsOf, getQ, dot, demoOptSplit, OptFn.init,
        List.range_succ])⟩

/-- C6: When no candidate split position exists, the hyperplane
objective returns the negated no-split log-likelihood and the state changes
only in the function-evaluation counter: every `best_*` field is left as it
was. -/
theorem claim_C6_no_candidate_frame {P : Type} (f : List ℚ → P → ℕ → List ℕ → List ℚ)
    (s : OptFn P) (normal : List ℚ) (h : splitIdxsOf s normal = []) :
    OptFn.compute f s normal =
      ({ s with function_evaluations := s.function_evaluations + 1 },
        -s.log_p_data_no_split) := by
  unfold OptFn.compute
  rw [if_pos h]

/-- Witness for C6: the coincident-points instance has no candidate split
for the normal `[1]`; the call returns `-5` and only bumps the counter. -/
theorem claim_C6_no_candidate_frame_witness :
    splitIdxsOf demoOptFlat [1] = []
      ∧ OptFn.compute demoF demoOptFlat [1] =
        ({ demoOptFlat with function_evaluations := demoOptFlat.function_evaluations + 1 },
          -demoOptFlat.log_p_data_no_split) :=
  ⟨by norm_num [splitIdxsOf, projectionsOf, getQ, dot, demoOptFlat, OptFn.init,
      List.range_succ],
    claim_C6_no_candidate_frame demoF demoOptFlat [1]
      (by norm_num [splitIdxsOf, projectionsOf, getQ, dot, demoOptFlat, OptFn.init,
        List.range_succ])⟩

/-- C7 counterexample: The claim states the sanitization replaces each
non-finite component with zero.  `np.nan_to_num` with default arguments
replaces `+inf` with the largest finite double `FMAX`, not `0`: sanitizing
`[+inf, 1]` yields `[FMAX, 1] ≠ [0, 1]`. -/
theorem claim_C7_counterexample :
    sanitizePre [Fl.posinf, Fl.finite 1] = [FMAX, 1]
      ∧ (FMAX : ℚ) ≠ 0
      ∧ sanitizePre [Fl.posinf, Fl.finite 1] ≠ [0, 1] := by
  refine ⟨?_, ?_, ?_⟩ <;> norm_num [sanitizePre, nanToNum, FMAX]

/-- Lemma: `sumSq` unfolds over a cons cell. -/
theorem sumSq_cons (a : ℚ) (w : List ℚ) : sumSq (a :: w) = a * a + sumSq w := by
  simp [sumSq]

/-- A sum of squares is non-negative. -/
theorem sumSq_nonneg (w : List ℚ) : 0 ≤ sumSq w := by
  induction w with
  | nil => simp [sumSq]
  | cons a w ih => rw [sumSq_cons]; exact add_nonneg (mul_self_nonneg a) ih

/-- A sum of squares vanishes exactly when every component does. -/
theorem sumSq_eq_zero_iff (w : List ℚ) : sumSq w = 0 ↔ ∀ x ∈ w, x = 0 := by
  induction w with
  | nil => simp [sumSq]
  | cons a w ih =>
    rw [sumSq_cons]
    constructor
    · intro h
      have h1 : a * a = 0 ∧ sumSq w = 0 :=
        (add_eq_zero_iff_of_nonneg (mul_self_nonneg a) (sumSq_nonneg w)).mp h
      have ha : a = 0 := mul_self_eq_zero.mp h1.1
      intro x hx
      rcases List.mem_cons.mp hx with rfl | hx
      · exact ha
      · exact (ih.mp h1.2) x hx
    · intro h
      have ha : a = 0 := h a (List.mem_cons_self a w)
      rw [ha, mul_zero, zero_add]
      exact ih.mpr (fun x hx => h x (List.mem_cons_of_mem a hx))

/-- After lines 49–51 the normal vector is never the zero vector: either
some sanitized component is non-zero, or the first component was set to
`1`. -/
theorem sanitizePre_sumSq_pos (v : List Fl) (h : v ≠ []) : 0 < sumSq (sanitizePre v) := by
  have hlen : v.map nanToNum ≠ [] := by
    cases v with
    | nil => exact absurd rfl h
    | cons a t => simp
  rcases lt_or_eq_of_le (sumSq_nonneg (sanitizePre v)) with hpos | hzero
  · exact hpos
  · exfalso
    have hall : ∀ x ∈ sanitizePre v, x = 0 := (sumSq_eq_zero_iff _).mp hzero.symm
    unfold sanitizePre at hall
    by_cases hz : (v.map nanToNum).all (fun x => x = 0) = true
    · rw [if_pos hz] at hall
      cases hmap : v.map nanToNum with
      | nil => exact hlen hmap
      | cons a t =>
        have : (1 : ℚ) = 0 := hall 1 (by rw [hmap]; simp [List.set])
        norm_num at this
    · rw [if_neg hz] at hall
      exact hz (List.all_eq_true.mpr (fun x hx => by simpa using hall x hx))

/-- Dividing every component by a constant divides the sum of squares by
its square. -/
theorem sumSqR_map_div (w : List ℚ) (c : ℝ) :
    sumSqR (w.map (fun x => (x : ℝ) / c)) = (sumSq w : ℝ) / c ^ 2 := by
  induction w with
  | nil => simp [sumSqR, sumSq]
  | cons a w ih =>
    have h1 : sumSqR ((a :: w).map (fun x => (x : ℝ) / c))
        = ((a : ℝ) / c) * ((a : ℝ) / c) + sumSqR (w.map (fun x => (x : ℝ) / c)) := by
      simp [sumSqR]
    rw [h1, ih, sumSq_cons]
    push_cast
    rw [div_mul_div_comm, ← pow_two, ← pow_two c, div_add_div_same]

/-- Lemma: `hyperplane_normal /= np.linalg.norm(hyperplane_normal)` yields a unit
vector: the sum of squares of the normalized sanitized vector is `1`. -/
theorem sanitizePre_unit_length (v : List Fl) (h : v ≠ []) :
    sumSqR ((sanitizePre v).map
      (fun x => (x : ℝ) / Real.sqrt ((sumSq (sanitizePre v) : ℚ) : ℝ))) = 1 := by
  have hS : 0 < sumSq (sanitizePre v) := sanitizePre_sumSq_pos v h
  have hSR : (0 : ℝ) < ((sumSq (sanitizePre v) : ℚ) : ℝ) := by exact_mod_cast hS
  rw [sumSqR_map_div, Real.sq_sqrt hSR.le, div_self hSR.ne']

/-- When every sanitized component is zero, setting the first component to
`1` produces exactly the first basis vector. -/
theorem sanitizePre_all_zero (v : List Fl) (h : v ≠ [])
    (hz : (v.map nanToNum).all (fun x => x = 0) = true) :
    sanitizePre v = 1 :: List.replicate (v.length - 1) 0 := by
  unfold sanitizePre
  rw [if_pos hz]
  cases hv : v.map nanToNum with
  | nil =>
    cases v with
    | nil => exact absurd rfl h
    | cons a t => simp at hv
  | cons a t =>
    have ht : ∀ x ∈ t, x = 0 := by
      intro x hx
      have := List.all_eq_true.mp hz x (by rw [hv]; exact List.mem_cons_of_mem a hx)
      simpa using this
    have hlen : t.length = v.length - 1 := by
      have := congrArg List.length hv
      simp at this
      omega
    have hrepl : t = List.replicate t.length (0 : ℚ) := List.eq_replicate_length.mpr ht
    simp only [List.set]
    rw [← hlen, ← hrepl]

/-- C7 amended: The sanitization of a proposed normal vector replaces
NaN components with `0` and infinite components with the largest-magnitude
finite double `±FMAX` (not with zero — `np.nan_to_num` defaults), defaults
to the first basis vector when the sanitized vector is exactly zero, and
produces a vector of unit Euclidean length before projection. -/
theorem claim_C7_sanitize_amended (v : List Fl) (h : v ≠ []) :
    (∀ q, nanToNum (Fl.finite q) = q) ∧ nanToNum Fl.nan = 0
      ∧ nanToNum Fl.posinf = FMAX ∧ nanToNum Fl.neginf = -FMAX
      ∧ ((v.map nanToNum).all (fun x => x = 0) = true →
          sanitizePre v = 1 :: List.replicate (v.length - 1) 0)
      ∧ sumSqR ((sanitizePre v).map
          (fun x => (x : ℝ) / Real.sqrt ((sumSq (sanitizePre v) : ℚ) : ℝ))) = 1 :=
  ⟨fun _ => rfl, rfl, rfl, rfl, sanitizePre_all_zero v h, sanitizePre_unit_length v h⟩

/-- Witness for the amended C7 at the concrete vector `[NaN, 3]`. -/
theorem claim_C7_sanitize_amended_witness :
    ([Fl.nan, Fl.finite 3] ≠ [])
      ∧ ((∀ q, nanToNum (Fl.finite q) = q) ∧ nanToNum Fl.nan = 0
        ∧ nanToNum Fl.posinf = FMAX ∧ nanToNum Fl.neginf = -FMAX
        ∧ (([Fl.nan, Fl.finite 3].map nanToNum).all (fun x => x = 0) = true →
            sanitizePre [Fl.nan, Fl.finite 3]
              = 1 :: List.replicate ([Fl.nan, Fl.finite 3].length - 1) 0)
        ∧ sumSqR ((sanitizePre [Fl.nan, Fl.finite 3]).map
            (fun x => (x : ℝ)
              / Real.sqrt ((sumSq (sanitizePre [Fl.nan, Fl.finite 3]) : ℚ) : ℝ))) = 1) :=
  ⟨by simp, claim_C7_sanitize_amended [Fl.nan, Fl.finite 3] (by simp)⟩

/-- C8: `RandomTwoPointOptimizer.solve` raises to the caller exactly
when some target value is non-integral (`np.round(y) != y` somewhere), and
returns after zero objective evaluations when the targets are class-like
but fewer than two distinct classes are present.  Both checks precede the
Monte-Carlo evaluation loop. -/
theorem claim_C8_two_point_fail_fast (loopEvaluations : ℕ) (y : List ℚ) :
    (randomTwoPointSolve loopEvaluations y = .error ()
        ↔ y.any (fun v => qround v ≠ v) = true)
      ∧ (y.any (fun v => qround v ≠ v) = false → y.dedup.length ≤ 1 →
        randomTwoPointSolve loopEvaluations y = .ok 0) := by
  unfold randomTwoPointSolve
  constructor
  · constructor
    · intro h
      by_cases h1 : y.any (fun v => qround v ≠ v) = true
      · exact h1
      · rw [if_neg (by simp_all)] at h
        split at h <;> simp_all
    · intro h1
      rw [if_pos (by simp_all)]
  · intro h1 h2
    rw [if_neg (by simp_all), if_pos h2]

/-- Witness for C8: on the single-class integral target list `[5, 5]` the
solve returns normally with zero objective evaluations. -/
theorem claim_C8_two_point_fail_fast_witness :
    ([5, 5] : List ℚ).any (fun v => qround v ≠ v) = false
      ∧ ([5, 5] : List ℚ).dedup.length ≤ 1
      ∧ randomTwoPointSolve 7 [5, 5] = .ok 0 :=
  ⟨by norm_num [qround], by norm_num [List.dedup],
    (claim_C8_two_point_fail_fast 7 [5, 5]).2 (by norm_num [qround])
      (by norm_num [List.dedup])⟩

/-- C10: `Node.fit` runs the target validation `check_target` exactly
when the node's `level` is `0`: the fit call reports the target-validation
error if and only if `level = 0` and the check fails, so a node constructed
with `level > 0` never raises it, and the recursion (`_fit` calling `_fit`
on the children directly) performs no validation at all. -/
theorem claim_C10_validation_iff_level_zero {P : Type} (M : TreeModel P)
    (checkFails : List ℚ → Bool) (prior : P) (level : ℕ) (X : List (List ℚ))
    (y : List ℚ) (delta : ℚ) :
    Node.fit M checkFails prior level X y delta = .error .badTarget
      ↔ (level = 0 ∧ checkFails y = true) := by
  unfold Node.fit
  split_ifs with h1 h2 <;> simp_all



/-- The value the objective returns: the negated no-split log-likelihood when no candidate exists, else the negated best candidate log-likelihood — in every branch of the acceptance logic. -/
theorem compute_snd {P : Type} (f : List ℚ → P → ℕ → List ℕ → List ℚ) (s : OptFn P)
    (normal : List ℚ) :
    (OptFn.compute f s normal).2 =
      if splitIdxsOf s normal = [] then -s.log_p_data_no_split
      else -(candV f s normal) := by
  simp only [OptFn.compute]
  split_ifs <;> rfl

/-- Inserting an index permutes a cons. -/
theorem insertIdx_perm (v : List ℚ) (i : ℕ) (l : List ℕ) :
    List.Perm (insertIdx v i l) (i :: l) := by
  induction l with
  | nil => exact List.Perm.refl _
  | cons j rest ih =>
    unfold insertIdx
    split
    · exact List.Perm.refl _
    · exact List.Perm.trans (List.Perm.cons j ih) (List.Perm.swap i j rest)

/-- The insertion-sort fold permutes its input onto the accumulator. -/
theorem foldl_insertIdx_perm (v : List ℚ) :
    ∀ (l : List ℕ) (acc : List ℕ),
      List.Perm (l.foldl (fun a i => insertIdx v i a) acc) (l ++ acc) := by
  intro l
  induction l with
  | nil => intro acc; simp
  | cons x xs ih =>
    intro acc
    rw [List.foldl_cons]
    have h1 := ih (insertIdx v x acc)
    have h2 : List.Perm (xs ++ insertIdx v x acc) (xs ++ x :: acc) :=
      List.Perm.append_left xs (insertIdx_perm v x acc)
    have h3 : List.Perm (xs ++ x :: acc) (x :: (xs ++ acc)) := List.perm_middle
    exact h1.trans (h2.trans h3)

/-- The argsort is a permutation of the index range, like `np.argsort`. -/
theorem argsortQ_perm (v : List ℚ) : List.Perm (argsortQ v) (List.range v.length) := by
  have h := foldl_insertIdx_perm v (List.range v.length) []
  rw [List.append_nil] at h
  exact h

/-- Reading every position of a list in order reproduces the list. -/
theorem map_getQ_range (v : List ℚ) :
    (List.range v.length).map (fun i => getQ v i) = v := by
  induction v with
  | nil => rfl
  | cons a t ih =>
    rw [List.length_cons, List.range_succ_eq_map, List.map_cons, List.map_map]
    have h1 : getQ (a :: t) 0 = a := rfl
    have h2 : ((fun i => getQ (a :: t) i) ∘ Nat.succ) = fun i => getQ t i := by
      funext i
      simp [getQ]
    rw [h1, h2, ih]

/-- Fancy indexing by a permutation of the index range permutes the vector. -/
theorem reorderQ_perm (v : List ℚ) (idxs : List ℕ)
    (h : List.Perm idxs (List.range v.length)) : List.Perm (reorderQ v idxs) v := by
  unfold reorderQ
  have h1 : List.Perm (idxs.map (fun i => getQ v i))
      ((List.range v.length).map (fun i => getQ v i)) := List.Perm.map _ h
  rw [map_getQ_range v] at h1
  exact h1

/-- One projection per data row. -/
theorem projectionsOf_length {P : Type} (s : OptFn P) (normal : List ℚ) :
    (projectionsOf s normal).length = s.X.length := by
  simp [projectionsOf]

/-- The projection-sorted target vector is one of the finitely many reorderings of `y`. -/
theorem ySortedOf_mem_permutations {P : Type} (s : OptFn P) (normal : List ℚ)
    (hlen : s.y.length = s.X.length) :
    ySortedOf s normal ∈ s.y.permutations := by
  rw [List.mem_permutations]
  apply reorderQ_perm
  have h := argsortQ_perm (projectionsOf s normal)
  rw [projectionsOf_length] at h
  rw [hlen]
  exact h

/-- The candidate split positions form one of the finitely many subsets of `1..n-1`. -/
theorem splitIdxsOf_mem_sublists {P : Type} (s : OptFn P) (normal : List ℚ) :
    splitIdxsOf s normal ∈ ((List.range (s.X.length - 1)).map (· + 1)).sublists := by
  rw [List.mem_sublists]
  unfold splitIdxsOf
  rw [projectionsOf_length]
  exact List.Sublist.map _ (List.filter_sublist _)

/-- Finite range: every value the hyperplane objective can return over a fixed data/prior instance lies in the explicit finite list `objValueCandidates`. -/
theorem compute_snd_mem {P : Type} (f : List ℚ → P → ℕ → List ℕ → List ℚ) (s : OptFn P)
    (normal : List ℚ) (hlen : s.y.length = s.X.length) :
    (OptFn.compute f s normal).2 ∈ objValueCandidates f s := by
  rw [compute_snd]
  unfold objValueCandidates
  split_ifs with h
  · exact List.mem_cons_self _ _
  · apply List.mem_cons_of_mem
    apply List.mem_flatMap.mpr
    refine ⟨ySortedOf s normal, ySortedOf_mem_permutations s normal hlen, ?_⟩
    apply List.mem_map.mpr
    exact ⟨splitIdxsOf s normal, splitIdxsOf_mem_sublists s normal, rfl⟩

/-- The value returned by the objective does not depend on the mutable best-so-far state or the evaluation counter, which justifies treating the objective as a pure function inside the optimizer loops. -/
theorem compute_snd_best_independent {P : Type} (f : List ℚ → P → ℕ → List ℕ → List ℚ)
    (s : OptFn P) (normal : List ℚ) (e : ℕ) (b c : ℚ) (hn ho : Option (List ℚ)) :
    (OptFn.compute f
      { s with
          function_evaluations := e
          best_log_p_data_split := b
          best_cumulative_distances := c
          best_hyperplane_normal := hn
          best_hyperplane_origin := ho } normal).2
    = (OptFn.compute f s normal).2 := by
  rw [compute_snd, compute_snd]
  rfl



/-- Sorting the keys permutes them. -/
theorem sortedKeys_perm (d : List (ℚ × List ℚ)) :
    List.Perm (sortedKeys d) (d.map Prod.fst) := List.perm_insertionSort _ _

/-- The sorted keys are ascending. -/
theorem sortedKeys_sorted (d : List (ℚ × List ℚ)) :
    List.Sorted (fun a b => a ≤ b) (sortedKeys d) := List.sorted_insertionSort _ _

/-- A non-empty dict has non-empty sorted keys. -/
theorem sortedKeys_ne_nil (d : List (ℚ × List ℚ)) (hd : d ≠ []) : sortedKeys d ≠ [] := by
  intro h
  have hperm := sortedKeys_perm d
  rw [h] at hperm
  have hlen := hperm.length_eq
  simp at hlen
  exact hd (List.length_eq_zero.mp hlen.symm)

/-- The smallest key belongs to the dict. -/
theorem minKey_mem (d : List (ℚ × List ℚ)) (hd : d ≠ []) : ∃ p ∈ d, p.1 = minKey d := by
  cases hsk : sortedKeys d with
  | nil => exact absurd hsk (sortedKeys_ne_nil d hd)
  | cons h t =>
    have hmem : h ∈ d.map Prod.fst := by
      have := (sortedKeys_perm d).mem_iff.mp (by rw [hsk]; exact List.mem_cons_self h t)
      exact this
    rcases List.mem_map.mp hmem with ⟨p, hp, hph⟩
    refine ⟨p, hp, ?_⟩
    rw [minKey, hsk, hph]
    rfl

/-- The smallest key bounds every key below. -/
theorem minKey_le (d : List (ℚ × List ℚ)) (p : ℚ × List ℚ) (hp : p ∈ d) :
    minKey d ≤ p.1 := by
  cases hsk : sortedKeys d with
  | nil =>
    exact absurd hsk (sortedKeys_ne_nil d (List.ne_nil_of_mem hp))
  | cons h t =>
    have hmem : p.1 ∈ sortedKeys d :=
      (sortedKeys_perm d).mem_iff.mpr (List.mem_map_of_mem Prod.fst hp)
    rw [hsk] at hmem
    have hsor := sortedKeys_sorted d
    rw [hsk] at hsor
    have hmin : minKey d = h := by rw [minKey, hsk]; rfl
    rcases List.mem_cons.mp hmem with heq | hmem'
    · rw [hmin, heq]
    · rw [hmin]
      exact (List.sorted_cons.mp hsor).1 p.1 hmem'

/-- Membership after a dict insert: the new pair or an old one. -/
theorem dictInsert_mem (k : ℚ) (v : List ℚ) (d : List (ℚ × List ℚ)) (p : ℚ × List ℚ)
    (hp : p ∈ dictInsert k v d) : p = (k, v) ∨ p ∈ d := by
  unfold dictInsert at hp
  rcases List.mem_cons.mp hp with heq | hmem
  · exact Or.inl heq
  · exact Or.inr (List.mem_of_mem_filter hmem)

/-- A key present before a dict insert is present after it. -/
theorem dictInsert_key_preserved (k : ℚ) (v : List ℚ) (d : List (ℚ × List ℚ)) (k' : ℚ)
    (h : ∃ p ∈ d, p.1 = k') : ∃ p ∈ dictInsert k v d, p.1 = k' := by
  by_cases hk : k' = k
  · exact ⟨(k, v), List.mem_cons_self _ _, hk.symm⟩
  · rcases h with ⟨p, hp, hpk⟩
    refine ⟨p, ?_, hpk⟩
    unfold dictInsert
    apply List.mem_cons_of_mem
    apply List.mem_filter.mpr
    exact ⟨hp, by simp [hpk, hk]⟩

/-- A dict insert never empties the dict. -/
theorem dictInsert_ne_nil (k : ℚ) (v : List ℚ) (d : List (ℚ × List ℚ)) :
    dictInsert k v d ≠ [] := by
  unfold dictInsert
  exact List.cons_ne_nil _ _

/-- A fold whose steps insert only keys from `V` keeps all keys in `V`. -/
theorem fold_dict_keys_in (V : List ℚ)
    (T : (List (ℚ × List ℚ) × ℕ) → ℕ → (List (ℚ × List ℚ) × ℕ))
    (hT : ∀ a x, ∃ key vec, key ∈ V ∧ (T a x).1 = dictInsert key vec a.1) :
    ∀ (l : List ℕ) (a : List (ℚ × List ℚ) × ℕ),
      (∀ p ∈ a.1, p.1 ∈ V) → ∀ p ∈ (l.foldl T a).1, p.1 ∈ V := by
  intro l
  induction l with
  | nil => intro a ha p hp; exact ha p hp
  | cons x xs ih =>
    intro a ha
    rw [List.foldl_cons]
    apply ih
    intro p hp
    obtain ⟨key, vec, hkey, heq⟩ := hT a x
    rw [heq] at hp
    rcases dictInsert_mem _ _ _ _ hp with rfl | hp'
    · exact hkey
    · exact ha p hp'

/-- A fold of dict inserts preserves existing keys. -/
theorem fold_dict_key_preserved
    (T : (List (ℚ × List ℚ) × ℕ) → ℕ → (List (ℚ × List ℚ) × ℕ))
    (hT : ∀ a x, ∃ key vec, (T a x).1 = dictInsert key vec a.1) :
    ∀ (l : List ℕ) (a : List (ℚ × List ℚ) × ℕ) (k : ℚ),
      (∃ p ∈ a.1, p.1 = k) → ∃ p ∈ (l.foldl T a).1, p.1 = k := by
  intro l
  induction l with
  | nil => intro a k h; exact h
  | cons x xs ih =>
    intro a k h
    rw [List.foldl_cons]
    apply ih
    obtain ⟨key, vec, heq⟩ := hT a x
    rw [heq]
    exact dictInsert_key_preserved _ _ _ _ h

/-- A fold of dict inserts yields a non-empty dict when it starts non-empty or performs at least one step. -/
theorem fold_dict_ne_nil
    (T : (List (ℚ × List ℚ) × ℕ) → ℕ → (List (ℚ × List ℚ) × ℕ))
    (hT : ∀ a x, ∃ key vec, (T a x).1 = dictInsert key vec a.1) :
    ∀ (l : List ℕ) (a : List (ℚ × List ℚ) × ℕ),
      (a.1 ≠ [] ∨ l ≠ []) → (l.foldl T a).1 ≠ [] := by
  intro l
  induction l with
  | nil =>
    intro a h
    rcases h with h | h
    · exact h
    · exact absurd rfl h
  | cons x xs ih =>
    intro a _
    rw [List.foldl_cons]
    apply ih
    left
    obtain ⟨key, vec, heq⟩ := hT a x
    rw [heq]
    exact dictInsert_ne_nil _ _ _

/-- Taking a positive prefix keeps the head. -/
theorem getQ_take_zero (l : List ℚ) (n : ℕ) (hn : 1 ≤ n) :
    getQ (l.take n) 0 = getQ l 0 := by
  cases l with
  | nil => simp
  | cons a t =>
    cases n with
    | zero => omega
    | succ m => rfl

/-- The shared keep-best tail keeps the dict non-empty, preserves the smallest key, keeps only existing entries, and resets the non-improving counter exactly when the smallest key strictly improves on `best_value`. -/
theorem keepBestTail_spec (n_keep : ℕ) (d : List (ℚ × List ℚ)) (bv : WithTop ℚ) (ni : ℕ)
    (hd : d ≠ []) (hk : 1 ≤ n_keep) :
    (keepBestTail n_keep d bv ni).1 ≠ []
      ∧ minKey (keepBestTail n_keep d bv ni).1 = minKey d
      ∧ (∀ p ∈ (keepBestTail n_keep d bv ni).1, p ∈ d)
      ∧ (keepBestTail n_keep d bv ni).2 = if (minKey d : WithTop ℚ) < bv then 0 else ni + 1 := by
  have hmin_vs : minKey d ∈ (sortedKeys d).take n_keep := by
    cases hsk : sortedKeys d with
    | nil => exact absurd hsk (sortedKeys_ne_nil d hd)
    | cons h t =>
      have hmin : minKey d = h := by rw [minKey, hsk]; rfl
      cases n_keep with
      | zero => omega
      | succ m =>
        rw [hmin, List.take_cons (Nat.succ_pos m)]
        exact List.mem_cons_self _ _
  obtain ⟨p0, hp0, hp0k⟩ := minKey_mem d hd
  have hp0f : p0 ∈ (keepBestTail n_keep d bv ni).1 := by
    unfold keepBestTail
    apply List.mem_filter.mpr
    exact ⟨hp0, by simp [hp0k, hmin_vs]⟩
  have hne : (keepBestTail n_keep d bv ni).1 ≠ [] := List.ne_nil_of_mem hp0f
  have hsub : ∀ p ∈ (keepBestTail n_keep d bv ni).1, p ∈ d := by
    intro p hp
    unfold keepBestTail at hp
    exact List.mem_of_mem_filter hp
  refine ⟨hne, ?_, hsub, ?_⟩
  · apply le_antisymm
    · have := minKey_le _ p0 hp0f
      rw [hp0k] at this
      exact this
    · obtain ⟨q, hq, hqk⟩ := minKey_mem _ hne
      rw [← hqk]
      exact minKey_le d q (hsub q hq)
  · unfold keepBestTail
    simp only []
    rw [getQ_take_zero _ _ hk]
    rfl



/-- Strictly more elements of `V` lie below `b` than below a smaller member `a` of `V`: the termination measure of the improvement loops. -/
theorem countBelow_lt (V : List ℚ) (a b : ℚ) (ha : a ∈ V) (hab : a < b) :
    (V.toFinset.filter (fun x => x < a)).card
      < (V.toFinset.filter (fun x => x < b)).card := by
  apply Finset.card_lt_card
  rw [Finset.ssubset_iff_of_subset]
  · exact ⟨a, Finset.mem_filter.mpr ⟨List.mem_toFinset.mpr ha, hab⟩, by simp⟩
  · intro x hx
    rcases Finset.mem_filter.mp hx with ⟨hxV, hxa⟩
    exact Finset.mem_filter.mpr ⟨hxV, lt_trans hxa hab⟩

/-- The first simulated-annealing round (from the empty dict, `best_value = np.inf`) produces a non-empty dict of objective values and resets the non-improving counter. -/
theorem saRound_first_spec (φ : List ℚ → ℚ) (u : ℕ → List ℚ) (ps : SAParams)
    (st : SAState) (he : st.candidates = []) (htop : st.best_value = ⊤)
    (hscan : 1 ≤ ps.n_scan) (hk : 1 ≤ ps.n_keep) (V : List ℚ) (hV : ∀ x, φ x ∈ V) :
    (saRound φ u ps st).candidates ≠ []
      ∧ (∀ p ∈ (saRound φ u ps st).candidates, p.1 ∈ V)
      ∧ (saRound φ u ps st).no_improvements = 0 := by
  have hT : ∀ (a : List (ℚ × List ℚ) × ℕ) (x : ℕ),
      ∃ key vec, key ∈ V ∧ (firstRunStep φ u a x).1 = dictInsert key vec a.1 :=
    fun a x => ⟨φ (u a.2), u a.2, hV _, rfl⟩
  have hT' : ∀ (a : List (ℚ × List ℚ) × ℕ) (x : ℕ),
      ∃ key vec, (firstRunStep φ u a x).1 = dictInsert key vec a.1 :=
    fun a x => ⟨φ (u a.2), u a.2, rfl⟩
  have hrange : (List.range ps.n_scan) ≠ [] := by
    intro hc
    rw [List.range_eq_nil] at hc
    omega
  have hDne : ((List.range ps.n_scan).foldl (firstRunStep φ u) ([], st.rng)).1
      ≠ [] := fold_dict_ne_nil _ hT' _ _ (Or.inr hrange)
  have hDin : ∀ p ∈ ((List.range ps.n_scan).foldl (firstRunStep φ u)
      ([], st.rng)).1, p.1 ∈ V := by
    apply fold_dict_keys_in V _ hT
    intro p hp
    simp at hp
  simp only [saRound, he, if_pos]
  have hkb := keepBestTail_spec ps.n_keep
    ((List.range ps.n_scan).foldl (firstRunStep φ u) ([], st.rng)).1
    st.best_value st.no_improvements hDne hk
  obtain ⟨hkne, hkmin, hksub, hkcnt⟩ := hkb
  refine ⟨hkne, fun p hp => hDin p (hksub p hp), ?_⟩
  rw [hkcnt, htop]
  simp [WithTop.coe_lt_top]

/-- An evolution round of simulated annealing either strictly decreases the smallest retained value and resets the non-improving counter, or leaves the smallest value unchanged and increments the counter. -/
theorem saRound_evo_spec (φ : List ℚ → ℚ) (u : ℕ → List ℚ) (ps : SAParams)
    (st : SAState) (hne : st.candidates ≠ []) (hk : 1 ≤ ps.n_keep)
    (V : List ℚ) (hV : ∀ x, φ x ∈ V) (hinv : ∀ p ∈ st.candidates, p.1 ∈ V) :
    (saRound φ u ps st).candidates ≠ []
      ∧ (∀ p ∈ (saRound φ u ps st).candidates, p.1 ∈ V)
      ∧ ((saRound φ u ps st).no_improvements = 0
          ∧ minKey (saRound φ u ps st).candidates < minKey st.candidates
        ∨ (saRound φ u ps st).no_improvements = st.no_improvements + 1
          ∧ minKey (saRound φ u ps st).candidates = minKey st.candidates) := by
  have hT : ∀ (a : List (ℚ × List ℚ) × ℕ) (x : ℕ),
      ∃ key vec, key ∈ V
        ∧ (saEvoStep φ u st.f (sortedKeys st.candidates) ps.n_keep a x).1
          = dictInsert key vec a.1 :=
    fun a x => ⟨_, _, hV _, rfl⟩
  have hT' : ∀ (a : List (ℚ × List ℚ) × ℕ) (x : ℕ),
      ∃ key vec, (saEvoStep φ u st.f (sortedKeys st.candidates) ps.n_keep a x).1
        = dictInsert key vec a.1 :=
    fun a x => ⟨_, _, rfl⟩
  have hDne : ((List.range ps.n_keep).foldl
      (saEvoStep φ u st.f (sortedKeys st.candidates) ps.n_keep)
      (st.candidates, st.rng)).1 ≠ [] := fold_dict_ne_nil _ hT' _ _ (Or.inl hne)
  have hDin : ∀ p ∈ ((List.range ps.n_keep).foldl
      (saEvoStep φ u st.f (sortedKeys st.candidates) ps.n_keep)
      (st.candidates, st.rng)).1, p.1 ∈ V :=
    fold_dict_keys_in V _ hT _ _ hinv
  have hDsup : ∃ p ∈ ((List.range ps.n_keep).foldl
      (saEvoStep φ u st.f (sortedKeys st.candidates) ps.n_keep)
      (st.candidates, st.rng)).1, p.1 = minKey st.candidates :=
    fold_dict_key_preserved _ hT' _ _ _ (minKey_mem st.candidates hne)
  have hminle : minKey ((List.range ps.n_keep).foldl
      (saEvoStep φ u st.f (sortedKeys st.candidates) ps.n_keep)
      (st.candidates, st.rng)).1 ≤ minKey st.candidates := by
    obtain ⟨q, hq, hqk⟩ := hDsup
    rw [← hqk]
    exact minKey_le _ q hq
  simp only [saRound]
  rw [if_neg hne]
  dsimp only
  obtain ⟨hkne, hkmin, hksub, hkcnt⟩ := keepBestTail_spec ps.n_keep
    (List.foldl (saEvoStep φ u st.f (sortedKeys st.candidates) ps.n_keep)
      (st.candidates, st.rng) (List.range ps.n_keep)).1
    ((minKey st.candidates : ℚ) : WithTop ℚ) st.no_improvements hDne hk
  refine ⟨hkne, fun p hp => hDin p (hksub p hp), ?_⟩
  by_cases hlt : minKey (List.foldl (saEvoStep φ u st.f (sortedKeys st.candidates)
      ps.n_keep) (st.candidates, st.rng) (List.range ps.n_keep)).1 < minKey st.candidates
  · left
    constructor
    · rw [hkcnt, if_pos (WithTop.coe_lt_coe.mpr hlt)]
    · rw [hkmin]
      exact hlt
  · right
    constructor
    · rw [hkcnt, if_neg (fun hc => hlt (WithTop.coe_lt_coe.mp hc))]
    · rw [hkmin]
      exact le_antisymm hminle (not_lt.mp hlt)



/-- The `while no_improvements < 50` loop of simulated annealing exits after finitely many rounds whenever the objective has values in a finite list `V`: each round either strictly descends in the finite value set or increments the bounded counter. -/
theorem saLoop_terminates (φ : List ℚ → ℚ) (u : ℕ → List ℚ) (ps : SAParams)
    (hk : 1 ≤ ps.n_keep) (V : List ℚ) (hV : ∀ x, φ x ∈ V) :
    ∀ (n : ℕ) (st : SAState), (∀ p ∈ st.candidates, p.1 ∈ V) → st.candidates ≠ [] →
      51 * (V.toFinset.filter (fun x => x < minKey st.candidates)).card
        + (50 - st.no_improvements) ≤ n →
      ∃ fuel st', saLoop φ u ps fuel st = some st' := by
  intro n
  induction n with
  | zero =>
    intro st hinv hne hm
    refine ⟨0, st, ?_⟩
    unfold saLoop
    rw [if_neg (by omega)]
  | succ n ih =>
    intro st hinv hne hm
    by_cases hni : st.no_improvements < 50
    · obtain ⟨hne', hinv', hcase⟩ := saRound_evo_spec φ u ps st hne hk V hV hinv
      have hm' : 51 * (V.toFinset.filter
            (fun x => x < minKey (saRound φ u ps st).candidates)).card
          + (50 - (saRound φ u ps st).no_improvements) ≤ n := by
        rcases hcase with ⟨h0, hlt⟩ | ⟨h1, heq⟩
        · have hminmem : minKey (saRound φ u ps st).candidates ∈ V := by
            obtain ⟨q, hq, hqk⟩ := minKey_mem _ hne'
            rw [← hqk]
            exact hinv' q hq
          have hcard := countBelow_lt V _ _ hminmem hlt
          rw [h0]
          omega
        · rw [h1, heq]
          omega
      obtain ⟨fuel, st'', hrun⟩ := ih (saRound φ u ps st) hinv' hne' hm'
      refine ⟨fuel + 1, st'', ?_⟩
      unfold saLoop
      rw [if_pos hni]
      exact hrun
    · refine ⟨0, st, ?_⟩
      unfold saLoop
      rw [if_neg hni]

/-- Lemma: `SimulatedAnnealingOptimizer.solve` terminates for every random stream and every objective with finitely many values. -/
theorem saSolve_terminates (φ : List ℚ → ℚ) (u : ℕ → List ℚ) (ps : SAParams)
    (hscan : 1 ≤ ps.n_scan) (hk : 1 ≤ ps.n_keep) (V : List ℚ) (hV : ∀ x, φ x ∈ V) :
    ∃ fuel st', saSolve φ u ps fuel = some st' := by
  obtain ⟨hne1, hinv1, hni1⟩ :=
    saRound_first_spec φ u ps ⟨[], 0, ⊤, 1, 0⟩ rfl rfl hscan hk V hV
  obtain ⟨fuel, st', hrun⟩ := saLoop_terminates φ u ps hk V hV
    (51 * (V.toFinset.filter
        (fun x => x < minKey (saRound φ u ps ⟨[], 0, ⊤, 1, 0⟩).candidates)).card
      + (50 - (saRound φ u ps ⟨[], 0, ⊤, 1, 0⟩).no_improvements))
    (saRound φ u ps ⟨[], 0, ⊤, 1, 0⟩) hinv1 hne1 (le_refl _)
  refine ⟨fuel + 1, st', ?_⟩
  unfold saSolve saLoop
  rw [if_pos (by norm_num : (0:ℕ) < 50)]
  exact hrun



/-- In-bounds total indexing of a rational list returns a member. -/
theorem getQ_mem (xs : List ℚ) (i : ℕ) (h : i < xs.length) : getQ xs i ∈ xs := by
  unfold getQ
  rw [List.getD_eq_getElem xs 0 h]
  exact List.getElem_mem h

/-- The finite-difference pass returns the step magnitude it was given: the sign flips at the unit-box boundary are undone by the `abs`. -/
theorem gradPassAux_delta (φ : List ℚ → ℚ) (cand : List ℚ) (value : ℚ) :
    ∀ (l : List ℕ) (g : List ℚ) (δ : ℚ), 0 < δ →
      (gradPassAux φ cand value g δ l).2.1 = δ := by
  intro l
  induction l with
  | nil => intro g δ hδ; rfl
  | cons i rest ih =>
    intro g δ hδ
    simp only [gradPassAux]
    by_cases hc : getQ cand i + δ > 1
    · rw [if_pos hc]
      have habs : |(-δ)| = δ := by rw [abs_neg, abs_of_pos hδ]
      rw [habs]
      split
      · rfl
      · exact ih _ δ hδ
    · rw [if_neg hc, abs_of_pos hδ]
      split
      · rfl
      · exact ih _ δ hδ

/-- A positive rational step reaches `1` after at most `δ.den` tenfold widenings. -/
theorem widenFuel_bound (δ : ℚ) (hδ : 0 < δ) : 1 ≤ δ * 10 ^ δ.den := by
  have hden0 : ((δ.den : ℚ)) ≠ 0 := by
    have := δ.den_nz
    exact_mod_cast this
  have hmul : δ * (δ.den : ℚ) = (δ.num : ℚ) := by
    nth_rewrite 1 [← Rat.num_div_den δ]
    exact div_mul_cancel₀ _ hden0
  have hnum : (1 : ℚ) ≤ (δ.num : ℚ) := by
    have : 0 < δ.num := Rat.num_pos.mpr hδ
    exact_mod_cast this
  have hden : ((δ.den : ℚ)) ≤ 10 ^ δ.den := by
    have h1 : δ.den < 10 ^ δ.den := Nat.lt_pow_self (by norm_num) δ.den
    exact_mod_cast h1.le
  calc (1 : ℚ) ≤ δ.num := hnum
    _ = δ * δ.den := hmul.symm
    _ ≤ δ * 10 ^ δ.den := mul_le_mul_of_nonneg_left hden hδ.le

/-- The step-widening loop is fuel-independent beyond `k` rounds once `δ * 10 ^ k ≥ 1`: the Python `while True` loop exits after finitely many widenings, so the fuel `widenFuel δ = δ.den + 1` used by `gdInner` is always sufficient (with `widenFuel_bound`). -/
theorem widenLoop_congr (φ : List ℚ → ℚ) (cand : List ℚ) (value : ℚ) (nDim : ℕ) :
    ∀ (k : ℕ) (δ : ℚ), 0 < δ → 1 ≤ δ * 10 ^ k →
      ∀ n m, k < n → k < m →
        widenLoop φ cand value nDim n δ = widenLoop φ cand value nDim m δ := by
  intro k
  induction k with
  | zero =>
    intro δ hδ hbound n m hn hm
    obtain ⟨n', rfl⟩ : ∃ n', n = n' + 1 := ⟨n - 1, by omega⟩
    obtain ⟨m', rfl⟩ : ∃ m', m = m' + 1 := ⟨m - 1, by omega⟩
    simp only [pow_zero, mul_one] at hbound
    unfold widenLoop
    rcases hg : gradPassAux φ cand value (List.replicate nDim 0) δ (List.range nDim) with
      ⟨grad, δ', flag⟩
    have hd : δ' = δ := by
      have h := gradPassAux_delta φ cand value (List.range nDim) (List.replicate nDim 0) δ hδ
      rw [hg] at h
      exact h
    rw [hd]
    cases flag
    · rfl
    · dsimp only
      split_ifs with h10
      · rfl
      · exfalso
        apply h10
        linarith
  | succ k ihk =>
    intro δ hδ hbound n m hn hm
    obtain ⟨n', rfl⟩ : ∃ n', n = n' + 1 := ⟨n - 1, by omega⟩
    obtain ⟨m', rfl⟩ : ∃ m', m = m' + 1 := ⟨m - 1, by omega⟩
    unfold widenLoop
    rcases hg : gradPassAux φ cand value (List.replicate nDim 0) δ (List.range nDim) with
      ⟨grad, δ', flag⟩
    have hd : δ' = δ := by
      have h := gradPassAux_delta φ cand value (List.range nDim) (List.replicate nDim 0) δ hδ
      rw [hg] at h
      exact h
    rw [hd]
    cases flag
    · rfl
    · dsimp only
      split_ifs with h10
      · rfl
      · apply ihk (δ * 10) (by positivity)
        · rw [pow_succ', ← mul_assoc] at hbound
          exact hbound
        · omega
        · omega



/-- The doubling line search returns either its starting value or an objective value. -/
theorem lineSearch_result_mem (φ : List ℚ → ℚ) (V : List ℚ) (hV : ∀ x, φ x ∈ V)
    (cand grad : List ℚ) :
    ∀ (n : ℕ) (lam bv : ℚ) (bc : List ℚ) (r : ℚ × List ℚ), bv ∈ V →
      lineSearch φ cand grad n lam bv bc = some r → r.1 ∈ V := by
  intro n
  induction n with
  | zero =>
    intro lam bv bc r _ h
    exact absurd h (by simp [lineSearch])
  | succ n ih =>
    intro lam bv bc r hbv h
    simp only [lineSearch] at h
    split_ifs at h with hlt
    · exact ih _ _ _ _ (hV _) h
    · rw [Option.some_inj] at h
      rw [← h]
      exact hbv

/-- The doubling line search halts within `|V| + 1` steps: each continued doubling strictly decreases the best value inside the finite value set `V`. -/
theorem lineSearch_some (φ : List ℚ → ℚ) (V : List ℚ) (hV : ∀ x, φ x ∈ V)
    (cand grad : List ℚ) :
    ∀ (n : ℕ) (lam bv : ℚ) (bc : List ℚ),
      (V.toFinset.filter (fun x => x < bv)).card < n →
      ∃ r, lineSearch φ cand grad n lam bv bc = some r := by
  intro n
  induction n with
  | zero =>
    intro lam bv bc h
    omega
  | succ n ih =>
    intro lam bv bc h
    unfold lineSearch
    by_cases hlt : φ (clip01 (vecSub cand (vecScale lam grad))) < bv
    · rw [if_pos hlt]
      apply ih
      have hcb := countBelow_lt V _ _ (hV (clip01 (vecSub cand (vecScale lam grad)))) hlt
      omega
    · rw [if_neg hlt]
      exact ⟨_, rfl⟩

/-- The gradient-descent evolution loop completes (no line search exhausts the uniform fuel), keeps the dict non-empty, inserts only objective values, and preserves existing keys. -/
theorem gdInner_spec (φ : List ℚ → ℚ) (V : List ℚ) (hV : ∀ x, φ x ∈ V)
    (n_keep lsFuel nDim : ℕ) (hls : V.toFinset.card < lsFuel)
    (vs : List ℚ) (hvs : ∀ k ∈ vs, k ∈ V) (hvs_ne : vs ≠ []) (hnk : 1 ≤ n_keep) :
    ∀ (l : List ℕ), (∀ i ∈ l, i < n_keep) →
      ∀ (d : List (ℚ × List ℚ)) (sd : ℚ), d ≠ [] → (∀ p ∈ d, p.1 ∈ V) →
      ∃ d' sd', gdInner φ n_keep lsFuel nDim vs l (d, sd) = some (d', sd')
        ∧ d' ≠ [] ∧ (∀ p ∈ d', p.1 ∈ V)
        ∧ ∀ k, (∃ p ∈ d, p.1 = k) → ∃ p ∈ d', p.1 = k := by
  intro l
  induction l with
  | nil =>
    intro _ d sd hd hdV
    exact ⟨d, sd, rfl, hd, hdV, fun k h => h⟩
  | cons i rest ih =>
    intro hmem d sd hd hdV
    have hi : i < n_keep := hmem i (List.mem_cons_self _ _)
    have hlen : 1 ≤ vs.length := List.length_pos.mpr hvs_ne
    have hic : i * vs.length / n_keep < vs.length := by
      rw [Nat.div_lt_iff_lt_mul (by omega : 0 < n_keep)]
      calc i * vs.length < n_keep * vs.length :=
            mul_lt_mul_of_pos_right hi (by omega)
        _ = vs.length * n_keep := Nat.mul_comm _ _
    have hvalV : getQ vs (i * vs.length / n_keep) ∈ V := hvs _ (getQ_mem vs _ hic)
    simp only [gdInner]
    rcases hw : widenLoop φ (dictGet d (getQ vs (i * vs.length / n_keep)))
        (getQ vs (i * vs.length / n_keep)) nDim (widenFuel sd) sd with _ | ⟨grad, δ⟩
    · exact ih (fun j hj => hmem j (List.mem_cons_of_mem i hj)) d sd hd hdV
    · have hcb : (V.toFinset.filter
          (fun x => x < getQ vs (i * vs.length / n_keep))).card < lsFuel :=
        lt_of_le_of_lt (Finset.card_filter_le _ _) hls
      obtain ⟨r, hr⟩ := lineSearch_some φ V hV
        (dictGet d (getQ vs (i * vs.length / n_keep))) grad lsFuel (1 / 1000000)
        (getQ vs (i * vs.length / n_keep))
        (dictGet d (getQ vs (i * vs.length / n_keep))) hcb
      rcases r with ⟨rv, rc⟩
      have hrv : rv ∈ V := lineSearch_result_mem φ V hV _ grad lsFuel _ _ _ (rv, rc) hvalV hr
      dsimp only
      rw [hr]
      obtain ⟨d', sd', heq, hne', hinv', hpres⟩ :=
        ih (fun j hj => hmem j (List.mem_cons_of_mem i hj)) (dictInsert rv rc d) (δ / 10)
          (dictInsert_ne_nil _ _ _)
          (fun p hp => by
            rcases dictInsert_mem _ _ _ _ hp with rfl | hp'
            · exact hrv
            · exact hdV p hp')
      exact ⟨d', sd', heq, hne', hinv',
        fun k h => hpres k (dictInsert_key_preserved _ _ _ _ h)⟩



/-- The first gradient-descent round mirrors the simulated-annealing one: non-empty value dict, counter reset. -/
theorem gdRound_first_spec (φ : List ℚ → ℚ) (u : ℕ → List ℚ) (ps : GDParams)
    (lsFuel nDim : ℕ) (st : GDState) (he : st.candidates = []) (htop : st.best_value = ⊤)
    (hinit : 1 ≤ ps.n_init) (hk : 1 ≤ ps.n_keep) (V : List ℚ) (hV : ∀ x, φ x ∈ V) :
    ∃ st', gdRound φ u ps lsFuel nDim st = some st'
      ∧ st'.candidates ≠ [] ∧ (∀ p ∈ st'.candidates, p.1 ∈ V)
      ∧ st'.no_improvements = 0 := by
  have hT : ∀ (a : List (ℚ × List ℚ) × ℕ) (x : ℕ),
      ∃ key vec, key ∈ V ∧ (firstRunStep φ u a x).1 = dictInsert key vec a.1 :=
    fun a x => ⟨φ (u a.2), u a.2, hV _, rfl⟩
  have hT' : ∀ (a : List (ℚ × List ℚ) × ℕ) (x : ℕ),
      ∃ key vec, (firstRunStep φ u a x).1 = dictInsert key vec a.1 :=
    fun a x => ⟨φ (u a.2), u a.2, rfl⟩
  have hrange : (List.range ps.n_init) ≠ [] := by
    intro hc
    rw [List.range_eq_nil] at hc
    omega
  have hDne : ((List.range ps.n_init).foldl (firstRunStep φ u) ([], st.rng)).1 ≠ [] :=
    fold_dict_ne_nil _ hT' _ _ (Or.inr hrange)
  have hDin : ∀ p ∈ ((List.range ps.n_init).foldl (firstRunStep φ u) ([], st.rng)).1,
      p.1 ∈ V := by
    apply fold_dict_keys_in V _ hT
    intro p hp
    simp at hp
  simp only [gdRound, he, if_pos]
  obtain ⟨hkne, hkmin, hksub, hkcnt⟩ := keepBestTail_spec ps.n_keep
    ((List.range ps.n_init).foldl (firstRunStep φ u) ([], st.rng)).1
    st.best_value st.no_improvements hDne hk
  refine ⟨_, rfl, hkne, fun p hp => hDin p (hksub p hp), ?_⟩
  rw [hkcnt, htop]
  simp [WithTop.coe_lt_top]

/-- An evolution round of gradient descent either strictly decreases the smallest retained value and resets the non-improving counter, or leaves it unchanged and increments the counter. -/
theorem gdRound_evo_spec (φ : List ℚ → ℚ) (u : ℕ → List ℚ) (ps : GDParams)
    (lsFuel nDim : ℕ) (st : GDState) (hne : st.candidates ≠ []) (hk : 1 ≤ ps.n_keep)
    (V : List ℚ) (hV : ∀ x, φ x ∈ V) (hls : V.toFinset.card < lsFuel)
    (hinv : ∀ p ∈ st.candidates, p.1 ∈ V) :
    ∃ st', gdRound φ u ps lsFuel nDim st = some st'
      ∧ st'.candidates ≠ [] ∧ (∀ p ∈ st'.candidates, p.1 ∈ V)
      ∧ (st'.no_improvements = 0 ∧ minKey st'.candidates < minKey st.candidates
        ∨ st'.no_improvements = st.no_improvements + 1
          ∧ minKey st'.candidates = minKey st.candidates) := by
  have hvs : ∀ k ∈ sortedKeys st.candidates, k ∈ V := by
    intro k hk'
    have hm : k ∈ st.candidates.map Prod.fst := (sortedKeys_perm _).mem_iff.mp hk'
    rcases List.mem_map.mp hm with ⟨p, hp, rfl⟩
    exact hinv p hp
  have hvs_ne := sortedKeys_ne_nil _ hne
  obtain ⟨d', sd', heq, hne', hinv', hpres⟩ := gdInner_spec φ V hV ps.n_keep lsFuel nDim
    hls (sortedKeys st.candidates) hvs hvs_ne hk (List.range ps.n_keep)
    (fun i hi => List.mem_range.mp hi) st.candidates st.start_delta hne hinv
  have hminle : minKey d' ≤ minKey st.candidates := by
    obtain ⟨q, hq, hqk⟩ := hpres (minKey st.candidates) (minKey_mem _ hne)
    rw [← hqk]
    exact minKey_le _ q hq
  simp only [gdRound]
  rw [if_neg hne, heq]
  dsimp only
  obtain ⟨hkne, hkmin, hksub, hkcnt⟩ := keepBestTail_spec ps.n_keep d'
    ((minKey st.candidates : ℚ) : WithTop ℚ) st.no_improvements hne' hk
  refine ⟨_, rfl, hkne, fun p hp => hinv' p (hksub p hp), ?_⟩
  by_cases hlt : minKey d' < minKey st.candidates
  · left
    constructor
    · rw [hkcnt, if_pos (WithTop.coe_lt_coe.mpr hlt)]
    · rw [hkmin]
      exact hlt
  · right
    constructor
    · rw [hkcnt, if_neg (fun hc => hlt (WithTop.coe_lt_coe.mp hc))]
    · rw [hkmin]
      exact le_antisymm hminle (not_lt.mp hlt)

/-- The `while no_improvements < 3` loop of gradient descent exits after finitely many rounds for an objective with values in a finite list. -/
theorem gdLoop_terminates (φ : List ℚ → ℚ) (u : ℕ → List ℚ) (ps : GDParams)
    (lsFuel nDim : ℕ) (hk : 1 ≤ ps.n_keep) (V : List ℚ) (hV : ∀ x, φ x ∈ V)
    (hls : V.toFinset.card < lsFuel) :
    ∀ (n : ℕ) (st : GDState), (∀ p ∈ st.candidates, p.1 ∈ V) → st.candidates ≠ [] →
      4 * (V.toFinset.filter (fun x => x < minKey st.candidates)).card
        + (3 - st.no_improvements) ≤ n →
      ∃ fuel st', gdLoop φ u ps lsFuel nDim fuel st = some st' := by
  intro n
  induction n with
  | zero =>
    intro st hinv hne hm
    refine ⟨0, st, ?_⟩
    unfold gdLoop
    rw [if_neg (by omega)]
  | succ n ih =>
    intro st hinv hne hm
    by_cases hni : st.no_improvements < 3
    · obtain ⟨st', heq, hne', hinv', hcase⟩ :=
        gdRound_evo_spec φ u ps lsFuel nDim st hne hk V hV hls hinv
      have hm' : 4 * (V.toFinset.filter (fun x => x < minKey st'.candidates)).card
          + (3 - st'.no_improvements) ≤ n := by
        rcases hcase with ⟨h0, hlt⟩ | ⟨h1, heqk⟩
        · have hminmem : minKey st'.candidates ∈ V := by
            obtain ⟨q, hq, hqk⟩ := minKey_mem _ hne'
            rw [← hqk]
            exact hinv' q hq
          have hcard := countBelow_lt V _ _ hminmem hlt
          rw [h0]
          omega
        · rw [h1, heqk]
          omega
      obtain ⟨fuel, st'', hrun⟩ := ih st' hinv' hne' hm'
      refine ⟨fuel + 1, st'', ?_⟩
      unfold gdLoop
      rw [if_pos hni, heq]
      exact hrun
    · refine ⟨0, st, ?_⟩
      unfold gdLoop
      rw [if_neg hni]

/-- Lemma: `GradientDescentOptimizer.solve` terminates for every random stream and every objective with finitely many values, with a uniform line-search budget. -/
theorem gdSolve_terminates (φ : List ℚ → ℚ) (u : ℕ → List ℚ) (ps : GDParams)
    (lsFuel nDim : ℕ) (hinit : 1 ≤ ps.n_init) (hk : 1 ≤ ps.n_keep)
    (V : List ℚ) (hV : ∀ x, φ x ∈ V) (hls : V.toFinset.card < lsFuel) :
    ∃ fuel st', gdSolve φ u ps lsFuel nDim fuel = some st' := by
  obtain ⟨st1, heq1, hne1, hinv1, hni1⟩ := gdRound_first_spec φ u ps lsFuel nDim
    ⟨[], 0, ⊤, 1 / 1000000, 0⟩ rfl rfl hinit hk V hV
  obtain ⟨fuel, st', hrun⟩ := gdLoop_terminates φ u ps lsFuel nDim hk V hV hls
    (4 * (V.toFinset.filter (fun x => x < minKey st1.candidates)).card
      + (3 - st1.no_improvements)) st1 hinv1 hne1 (le_refl _)
  refine ⟨fuel + 1, st', ?_⟩
  unfold gdSolve gdLoop
  rw [if_pos (by norm_num : (0:ℕ) < 3), heq1]
  exact hrun



/-- Classes other than `1` have no rows in the target vector `[-1, 1]`:
the only values present are `-1` (never a non-negative class) and `1`. -/
theorem classIndices_neg_one_one (c : ℕ) (hc : c ≠ 1) :
    classIndices [-1, 1] c = [] := by
  have hcast1 : ((c : ℚ)) ≠ 1 := by
    intro h
    exact hc (by exact_mod_cast h)
  have hcastm : (-1 : ℚ) ≠ (c : ℚ) := by
    intro h
    have h0 : (0 : ℚ) ≤ (c : ℚ) := Nat.cast_nonneg c
    rw [← h] at h0
    norm_num at h0
  unfold classIndices
  rw [List.filter_eq_nil_iff]
  intro j hj
  have hj2 : j < 2 := by simpa using List.mem_range.mp hj
  interval_cases j
  · simp [getQ]
    exact hcastm
  · simp [getQ]
    exact fun h => hcast1 h.symm

/-- On targets `[-1, 1]` the class-redraw loop of
`RandomTwoPointOptimizer.solve` never exits, for every random stream, every
number of iterations and from every control point: exiting needs two
*different* classes whose index lists are both non-empty, but only class `1`
has any rows. -/
theorem twoPointRedraw_spins (r : ℕ → ℕ) :
    ∀ (fuel k : ℕ) (ph : RedrawPhase), redrawAux [-1, 1] r fuel k ph = none := by
  intro fuel
  induction fuel with
  | zero => intro k ph; rfl
  | succ fuel ih =>
    intro k ph
    cases ph with
    | pickFirst => exact ih (k + 1) (.pickSecond _)
    | pickSecond c1 =>
      simp only [redrawAux]
      by_cases h2 : r k % nClasses [-1, 1] = c1
      · rw [if_pos h2]
        exact ih (k + 1) (.pickSecond c1)
      · rw [if_neg h2]
        have hempty : classIndices [-1, 1] c1 = []
            ∨ classIndices [-1, 1] (r k % nClasses [-1, 1]) = [] := by
          by_cases hc1 : c1 = 1
          · right
            apply classIndices_neg_one_one
            rw [hc1] at h2
            exact h2
          · left
            exact classIndices_neg_one_one c1 hc1
        rw [if_pos hempty]
        exact ih (k + 1) .pickFirst

/-- C9, counterexample: not every optimizer strategy's solve terminates.
The targets `[-1, 1]` are class-like (`np.round` fixes them) and contain two
distinct classes, so `RandomTwoPointOptimizer.solve` passes both fail-fast
checks and enters its Monte-Carlo loop with `n_classes = 2`; but class `0`
has no rows, so the class-redraw loop never reaches its exit — for every
random stream and every amount of fuel — and the solve call runs forever. -/
theorem claim_C9_counterexample :
    qround (-1 : ℚ) = -1 ∧ qround (1 : ℚ) = 1
      ∧ ([-1, 1] : List ℚ).dedup.length = 2
      ∧ nClasses [-1, 1] = 2
      ∧ ¬ ∃ (r : ℕ → ℕ) (fuel k : ℕ) (ph : RedrawPhase) (c : ℕ × ℕ),
          redrawAux [-1, 1] r fuel k ph = some c := by
  refine ⟨by norm_num [qround], by norm_num [qround], by norm_num [List.dedup],
    by norm_num [nClasses, maxQ, pyInt], ?_⟩
  rintro ⟨r, fuel, k, ph, c, h⟩
  rw [twoPointRedraw_spins r fuel k ph] at h
  exact Option.noConfusion h

/-- C9 (amended): the bounded-budget improvement loops terminate — the
simulated-annealing and the gradient-descent solve loops terminate on every
embedded hyperplane-objective instance, for every random stream (while the
randomized-two-point optimizer's class-redraw loop need not terminate, see
the counterexample above).  The objective takes finitely many values
(`compute_snd_mem`), so the strict-improvement resets can happen only
finitely often and the non-improving-round bounds (50 and 3) are reached
after finitely many objective evaluations; the finite-difference
step-widening loop exits within `widenFuel` rounds (`widenLoop_congr`,
`widenFuel_bound`) and every doubling line search within a uniform budget
(`lineSearch_some`). -/
theorem claim_C9_optimizer_termination {P : Type} (f : List ℚ → P → ℕ → List ℕ → List ℚ)
    (s : OptFn P) (hlen : s.y.length = s.X.length) (u u' : ℕ → List ℚ)
    (ps : SAParams) (ps' : GDParams) (nDim : ℕ)
    (h1 : 1 ≤ ps.n_scan) (h2 : 1 ≤ ps.n_keep) (h3 : 1 ≤ ps'.n_init)
    (h4 : 1 ≤ ps'.n_keep) :
    (∃ fuel st, saSolve (fun normal => (OptFn.compute f s normal).2) u ps fuel = some st)
      ∧ (∃ lsFuel fuel st,
          gdSolve (fun normal => (OptFn.compute f s normal).2) u' ps' lsFuel nDim fuel
            = some st) := by
  have hV : ∀ x, (OptFn.compute f s x).2 ∈ objValueCandidates f s :=
    fun x => compute_snd_mem f s x hlen
  constructor
  · exact saSolve_terminates _ u ps h1 h2 (objValueCandidates f s) hV
  · obtain ⟨fuel, st', h⟩ := gdSolve_terminates _ u' ps'
      ((objValueCandidates f s).toFinset.card + 1) nDim h3 h4 (objValueCandidates f s) hV
      (by omega)
    exact ⟨(objValueCandidates f s).toFinset.card + 1, fuel, st', h⟩

/-- Witness for C9 at the concrete two-point objective instance with unit budgets. -/
theorem claim_C9_optimizer_termination_witness :
    demoOptSplit.y.length = demoOptSplit.X.length
      ∧ ((∃ fuel st, saSolve (fun normal => (OptFn.compute demoF demoOptSplit normal).2)
            (fun _ => [0]) ⟨1, 1, 1 / 2⟩ fuel = some st)
        ∧ (∃ lsFuel fuel st,
            gdSolve (fun normal => (OptFn.compute demoF demoOptSplit normal).2)
              (fun _ => [0]) ⟨1, 1⟩ lsFuel 1 fuel = some st)) :=
  ⟨rfl, claim_C9_optimizer_termination demoF demoOptSplit rfl (fun _ => [0]) (fun _ => [0])
    ⟨1, 1, 1 / 2⟩ ⟨1, 1⟩ 1 (le_refl 1) (le_refl 1) (le_refl 1) (le_refl 1)⟩


end BayesTree
